import Mathlib

/-!
Shallow embedding of the ziplist ("zlist") component of the repository
(source file: the annotated `ziplist.c`).  The blob is modelled as a
`List Nat` of bytes (each kept `< 256` by construction); pointers into the
blob become `Nat` offsets; `realloc`/`memmove` become list operations; all
loops take explicit fuel so that every definition is executable by the
kernel.  The host is little-endian, so the source's `intrev*ifbe` /
`memrev*ifbe` calls are identities and are not modelled separately.
-/

namespace Ziplist

/-- Read one byte of the blob (out-of-range reads yield 0; the C code would
read unowned memory there, which only happens on the corrupted paths). -/
def readByte (zl : List Nat) (i : Nat) : Nat := zl.getD i 0

/-- Write one byte (no-op out of range, like a store into unchanged memory
that the model does not track). Values are truncated to a byte. -/
def setByte (zl : List Nat) (i v : Nat) : List Nat := zl.set i (v % 256)

/-- Little-endian encoding of a value into `k` bytes (truncating). -/
def natToLE : Nat → Nat → List Nat
  | 0, _ => []
  | k + 1, v => (v % 256) :: natToLE k (v / 256)

/-- Little-endian read of `k` bytes at offset `off`. -/
def readLE (zl : List Nat) (off : Nat) : Nat → Nat
  | 0 => 0
  | k + 1 => readByte zl off + 256 * readLE zl (off + 1) k

/-- Write a list of bytes at consecutive offsets. -/
def writeBytes (zl : List Nat) (off : Nat) : List Nat → List Nat
  | [] => zl
  | b :: bs => writeBytes (setByte zl off b) (off + 1) bs

/-- `ZIPLIST_BYTES` / `ZIPLIST_TAIL_OFFSET` accessors (u32, little-endian). -/
def getU32 (zl : List Nat) (off : Nat) : Nat := readLE zl off 4

def setU32 (zl : List Nat) (off v : Nat) : List Nat := writeBytes zl off (natToLE 4 v)

/-- `ZIPLIST_LENGTH` accessor (u16, little-endian). -/
def getU16 (zl : List Nat) (off : Nat) : Nat := readLE zl off 2

def setU16 (zl : List Nat) (off v : Nat) : List Nat := writeBytes zl off (natToLE 2 v)

/-- `memmove`: copies `n` bytes from `src` to `dst`; the source bytes are
captured before writing, so overlapping ranges behave like C `memmove`. -/
def memmove (zl : List Nat) (dst src n : Nat) : List Nat :=
  writeBytes zl dst ((List.range n).map fun j => readByte zl (src + j))

/-- Two's-complement representation of an integer in `k` bits. -/
def twosComp (k : Nat) (v : Int) : Nat := (v % ((2 ^ k : Nat) : Int)).toNat

/-- Reinterpret a `k`-bit unsigned value as a signed integer. -/
def toSigned (k : Nat) (u : Nat) : Int :=
  if u < 2 ^ (k - 1) then (u : Int) else (u : Int) - (2 ^ k : Nat)

/-! ### Entry header encoding/decoding (`zipIntSize`, `ZIP_DECODE_*`, …) -/

/-- `zipIntSize`: bytes needed for an integer payload of the given encoding. -/
def zipIntSize (encoding : Nat) : Nat :=
  if encoding = 0xfe then 1          -- ZIP_INT_8B
  else if encoding = 0xc0 then 2     -- ZIP_INT_16B
  else if encoding = 0xf0 then 3     -- ZIP_INT_24B
  else if encoding = 0xd0 then 4     -- ZIP_INT_32B
  else if encoding = 0xe0 then 8     -- ZIP_INT_64B
  else 0                             -- 4 bit immediate

/-- `ZIP_IS_STR`. -/
def zipIsStr (enc : Nat) : Bool := enc &&& 0xc0 < 0xc0

/-- `ZIP_ENTRY_ENCODING`: first byte, masked with `0xc0` when it is a string
encoding. -/
def zipEntryEncoding (zl : List Nat) (p : Nat) : Nat :=
  let e := readByte zl p
  if e < 0xc0 then e &&& 0xc0 else e

/-- `ZIP_DECODE_LENGTH`: returns `(encoding, lensize, len)`. -/
def zipDecodeLength (zl : List Nat) (p : Nat) : Nat × Nat × Nat :=
  let encoding := zipEntryEncoding zl p
  if encoding < 0xc0 then
    if encoding = 0x00 then (encoding, 1, readByte zl p &&& 0x3f)
    else if encoding = 0x40 then
      (encoding, 2, ((readByte zl p &&& 0x3f) <<< 8) ||| readByte zl (p + 1))
    else
      (encoding, 5,
        (readByte zl (p + 1) <<< 24) ||| (readByte zl (p + 2) <<< 16) |||
        (readByte zl (p + 3) <<< 8) ||| readByte zl (p + 4))
  else (encoding, 1, zipIntSize encoding)

/-- `ZIP_DECODE_PREVLENSIZE`. -/
def zipDecodePrevlensize (zl : List Nat) (p : Nat) : Nat :=
  if readByte zl p < 254 then 1 else 5

/-- `ZIP_DECODE_PREVLEN`: returns `(prevlensize, prevlen)`. -/
def zipDecodePrevlen (zl : List Nat) (p : Nat) : Nat × Nat :=
  if readByte zl p < 254 then (1, readByte zl p) else (5, readLE zl (p + 1) 4)

/-- `zipRawEntryLength`: total bytes used by the entry starting at `p`. -/
def zipRawEntryLength (zl : List Nat) (p : Nat) : Nat :=
  let ps := zipDecodePrevlensize zl p
  let dl := zipDecodeLength zl (p + ps)
  ps + dl.2.1 + dl.2.2

/-- `zipEncodeLength`: the bytes of the type/length header field.  The number
of bytes written (the C function's return value) is the list's length. -/
def zipEncodeLength (encoding : Nat) (rawlen : Nat) : List Nat :=
  if zipIsStr encoding then
    if rawlen ≤ 0x3f then [rawlen]
    else if rawlen ≤ 0x3fff then
      [0x40 ||| ((rawlen >>> 8) &&& 0x3f), rawlen &&& 0xff]
    else
      [0x80, (rawlen >>> 24) &&& 0xff, (rawlen >>> 16) &&& 0xff,
       (rawlen >>> 8) &&& 0xff, rawlen &&& 0xff]
  else [encoding]

/-- `zipPrevEncodeLength` (writing form): the bytes of the prevlen field. -/
def zipPrevEncodeLength (len : Nat) : List Nat :=
  if len < 254 then [len] else 254 :: natToLE 4 len

/-- `zipPrevEncodeLength(NULL, len)`: bytes required for the prevlen field. -/
def zipPrevEncodeLengthSize (len : Nat) : Nat :=
  if len < 254 then 1 else 5

/-- `zipPrevEncodeLengthForceLarge`: always the 5-byte form. -/
def zipPrevEncodeLengthForceLarge (len : Nat) : List Nat :=
  254 :: natToLE 4 len

/-- `zipPrevLenByteDiff`. -/
def zipPrevLenByteDiff (zl : List Nat) (p : Nat) (len : Nat) : Int :=
  (zipPrevEncodeLengthSize len : Int) - (zipDecodePrevlensize zl p : Int)

/-- The `zlentry` struct. -/
structure ZlEntry where
  prevrawlensize : Nat
  prevrawlen : Nat
  lensize : Nat
  len : Nat
  headersize : Nat
  encoding : Nat
  pos : Nat
  deriving Repr, DecidableEq

/-- `zipEntry`. -/
def zipEntry (zl : List Nat) (p : Nat) : ZlEntry :=
  let pd := zipDecodePrevlen zl p
  let dl := zipDecodeLength zl (p + pd.1)
  ⟨pd.1, pd.2, dl.2.1, dl.2.2, pd.1 + dl.2.1, dl.1, p⟩

/-! ### Integer payloads (`zipTryEncoding`, `zipSaveInteger`, `zipLoadInteger`) -/

/-- Modelled from the spec: `string2ll` (from `util.c`) is declared but its
definition is not under `src/`.  The spec says push/insert "attempt to parse
the provided byte slice as a signed decimal integer" and demands numeric
equivalence (its `compareAt` scenario treats `"01024"` as the integer 1024),
so the model accepts an optional leading minus sign followed by one or more
ASCII digits, reads the value numerically, and succeeds iff the value fits a
signed 64-bit integer. -/
def string2ll (s : List Nat) : Option Int :=
  let neg : Bool := s.headD 0 = 45
  let ds := if neg then s.tail else s
  if ds = [] then none
  else if ds.all fun c => 48 ≤ c && c ≤ 57 then
    let m : Nat := ds.foldl (fun a c => a * 10 + (c - 48)) 0
    let v : Int := if neg then -(m : Int) else (m : Int)
    if -(2 ^ 63) ≤ v ∧ v ≤ 2 ^ 63 - 1 then some v else none
  else none

/-- `zipTryEncoding`: returns the parsed value and the chosen integer
encoding, or `none` when the bytes must be stored as a string. -/
def zipTryEncoding (s : List Nat) : Option (Int × Nat) :=
  if 32 ≤ s.length ∨ s.length = 0 then none
  else
    match string2ll s with
    | none => none
    | some value =>
      let encoding :=
        if 0 ≤ value ∧ value ≤ 12 then 0xf1 + value.toNat
        else if -128 ≤ value ∧ value ≤ 127 then 0xfe
        else if -32768 ≤ value ∧ value ≤ 32767 then 0xc0
        else if -8388608 ≤ value ∧ value ≤ 8388607 then 0xf0
        else if -2147483648 ≤ value ∧ value ≤ 2147483647 then 0xd0
        else 0xe0
      some (value, encoding)

/-- `zipSaveInteger`: the payload bytes written for `value` under
`encoding`.  The 24-bit case mirrors the source's `i32 = value << 8` store of
the upper three little-endian bytes. -/
def zipSaveInteger (value : Int) (encoding : Nat) : List Nat :=
  if encoding = 0xfe then [twosComp 8 value]
  else if encoding = 0xc0 then natToLE 2 (twosComp 16 value)
  else if encoding = 0xf0 then (natToLE 4 (twosComp 32 (value * 256))).drop 1
  else if encoding = 0xd0 then natToLE 4 (twosComp 32 value)
  else if encoding = 0xe0 then natToLE 8 (twosComp 64 value)
  else []

/-- `zipLoadInteger` at offset `p`.  The 24-bit case mirrors the source's
load into the upper three bytes of a zeroed `int32` followed by an arithmetic
shift right by 8 (exact division here, since the value is a multiple of 256). -/
def zipLoadInteger (zl : List Nat) (p : Nat) (encoding : Nat) : Int :=
  if encoding = 0xfe then toSigned 8 (readByte zl p)
  else if encoding = 0xc0 then toSigned 16 (readLE zl p 2)
  else if encoding = 0xd0 then toSigned 32 (readLE zl p 4)
  else if encoding = 0xf0 then toSigned 32 (readLE zl p 3 * 256) / 256
  else if encoding = 0xe0 then toSigned 64 (readLE zl p 8)
  else if 0xf1 ≤ encoding ∧ encoding ≤ 0xfd then ((encoding &&& 0x0f : Nat) : Int) - 1
  else 0

/-! ### The ziplist operations -/

/-- `ZIPLIST_HEADER_SIZE`. -/
def headerSize : Nat := 10

/-- `ziplistNew`: `<zlbytes=11><zltail=10><zllen=0><zlend=0xFF>`. -/
def ziplistNew : List Nat := [11, 0, 0, 0, 10, 0, 0, 0, 0, 0, 255]

/-- `ziplistResize`: realloc preserving contents (fresh bytes are 0 in the
model), update the bytes field, re-write the terminator. -/
def ziplistResize (zl : List Nat) (len : Nat) : List Nat :=
  let base := zl.take len ++ List.replicate (len - zl.length) 0
  setByte (setU32 base 0 len) (len - 1) 255

/-- `ZIPLIST_INCR_LENGTH` (u16 arithmetic, saturating guard at `UINT16_MAX`). -/
def ziplistIncrLength (zl : List Nat) (incr : Int) : List Nat :=
  if getU16 zl 8 < 65535 then
    setU16 zl 8 (((getU16 zl 8 : Int) + incr) % 65536).toNat
  else zl

/-- The loop of `__ziplistCascadeUpdate`, with explicit fuel. -/
def cascadeGo : Nat → List Nat → Nat → List Nat
  | 0, zl, _ => zl
  | fuel + 1, zl, p =>
    if readByte zl p = 255 then zl
    else
      let curlen := getU32 zl 0
      let cur := zipEntry zl p
      let rawlen := cur.headersize + cur.len
      let rawlensize := zipPrevEncodeLengthSize rawlen
      if readByte zl (p + rawlen) = 255 then zl
      else
        let next := zipEntry zl (p + rawlen)
        if next.prevrawlen = rawlen then zl
        else if next.prevrawlensize < rawlensize then
          let extra := rawlensize - next.prevrawlensize
          let zl := ziplistResize zl (curlen + extra)
          let np := p + rawlen
          let zl :=
            if getU32 zl 4 ≠ np then setU32 zl 4 (getU32 zl 4 + extra) else zl
          let zl := memmove zl (np + rawlensize) (np + next.prevrawlensize)
              (((curlen : Int) - np - next.prevrawlensize - 1).toNat)
          let zl := writeBytes zl np (zipPrevEncodeLength rawlen)
          cascadeGo fuel zl (p + rawlen)
        else
          if next.prevrawlensize > rawlensize then
            writeBytes zl (p + rawlen) (zipPrevEncodeLengthForceLarge rawlen)
          else
            writeBytes zl (p + rawlen) (zipPrevEncodeLength rawlen)

/-- `__ziplistCascadeUpdate`. -/
def ziplistCascadeUpdate (zl : List Nat) (p : Nat) : List Nat :=
  cascadeGo (zl.length + 1) zl p

/-- The counting loop at the start of `__ziplistDelete`: returns the offset
one past the deleted run, and the number of entries deleted. -/
def deleteWalk : Nat → List Nat → Nat → Nat → Nat × Nat
  | 0, _, p, _ => (p, 0)
  | fuel + 1, zl, p, num =>
    if num = 0 then (p, 0)
    else if readByte zl p = 255 then (p, 0)
    else
      let r := deleteWalk fuel zl (p + zipRawEntryLength zl p) (num - 1)
      (r.1, r.2 + 1)

/-- `__ziplistDelete`. -/
def ziplistDeleteBase (zl : List Nat) (p : Nat) (num : Nat) : List Nat :=
  let first := zipEntry zl p
  let w := deleteWalk (zl.length + 1) zl p num
  let q := w.1
  let deleted := w.2
  let totlen := q - p
  if totlen = 0 then zl
  else if readByte zl q ≠ 255 then
    let nextdiff := zipPrevLenByteDiff zl q first.prevrawlen
    let q : Nat := ((q : Int) - nextdiff).toNat
    let zl := writeBytes zl q (zipPrevEncodeLength first.prevrawlen)
    let zl := setU32 zl 4 (((getU32 zl 4 : Int) - totlen).toNat)
    let tail := zipEntry zl q
    let zl :=
      if readByte zl (q + tail.headersize + tail.len) ≠ 255 then
        setU32 zl 4 (((getU32 zl 4 : Int) + nextdiff).toNat)
      else zl
    let zl := memmove zl p q (getU32 zl 0 - q - 1)
    let zl := ziplistResize zl (((getU32 zl 0 : Int) - totlen + nextdiff).toNat)
    let zl := ziplistIncrLength zl (-(deleted : Int))
    if nextdiff ≠ 0 then ziplistCascadeUpdate zl p else zl
  else
    let zl := setU32 zl 4 (p - first.prevrawlen)
    let zl := ziplistResize zl (((getU32 zl 0 : Int) - totlen).toNat)
    ziplistIncrLength zl (-(deleted : Int))

/-- `__ziplistInsert`. -/
def ziplistInsertBase (zl : List Nat) (p : Nat) (s : List Nat) : List Nat :=
  let curlen := getU32 zl 0
  let prevlen :=
    if readByte zl p ≠ 255 then (zipDecodePrevlen zl p).2
    else
      let ptail := getU32 zl 4
      if readByte zl ptail ≠ 255 then zipRawEntryLength zl ptail else 0
  let enc? := zipTryEncoding s
  let value : Int := match enc? with | some ve => ve.1 | none => 123456789
  let encoding : Nat := match enc? with | some ve => ve.2 | none => 0
  let reqlen0 := match enc? with | some ve => zipIntSize ve.2 | none => s.length
  let reqlen := reqlen0 + zipPrevEncodeLengthSize prevlen +
    (zipEncodeLength encoding s.length).length
  let nextdiff : Int :=
    if readByte zl p ≠ 255 then zipPrevLenByteDiff zl p reqlen else 0
  let zl := ziplistResize zl (((curlen : Int) + reqlen + nextdiff).toNat)
  let zl :=
    if readByte zl p ≠ 255 then
      let zl := memmove zl (p + reqlen) (((p : Int) - nextdiff).toNat)
          (((curlen : Int) - p - 1 + nextdiff).toNat)
      let zl := writeBytes zl (p + reqlen) (zipPrevEncodeLength reqlen)
      let zl := setU32 zl 4 (getU32 zl 4 + reqlen)
      let tail := zipEntry zl (p + reqlen)
      if readByte zl (p + reqlen + tail.headersize + tail.len) ≠ 255 then
        setU32 zl 4 (((getU32 zl 4 : Int) + nextdiff).toNat)
      else zl
    else
      setU32 zl 4 p
  let zl := if nextdiff ≠ 0 then ziplistCascadeUpdate zl (p + reqlen) else zl
  let pb := zipPrevEncodeLength prevlen
  let eb := zipEncodeLength encoding s.length
  let zl := writeBytes zl p pb
  let zl := writeBytes zl (p + pb.length) eb
  let zl :=
    if zipIsStr encoding then writeBytes zl (p + pb.length + eb.length) s
    else writeBytes zl (p + pb.length + eb.length) (zipSaveInteger value encoding)
  ziplistIncrLength zl 1

/-- `ziplistPush` (`loc = 0` is `ZIPLIST_HEAD`, otherwise the tail/end). -/
def ziplistPush (zl : List Nat) (s : List Nat) (loc : Nat) : List Nat :=
  let p := if loc = 0 then headerSize else getU32 zl 0 - 1
  ziplistInsertBase zl p s

/-- The backward (negative index) loop of `ziplistIndex`; mirrors
`while (prevlen > 0 && index--)` including the C post-decrement. -/
def indexNegLoop : Nat → List Nat → Nat → Nat → Int → Nat × Int
  | 0, _, p, _, index => (p, index)
  | fuel + 1, zl, p, prevlen, index =>
    if prevlen > 0 then
      if index = 0 then (p, index - 1)
      else
        let p := p - prevlen
        indexNegLoop fuel zl p (zipDecodePrevlen zl p).2 (index - 1)
    else (p, index)

/-- The forward loop of `ziplistIndex`; mirrors `while (p[0] != ZIP_END && index--)`. -/
def indexPosLoop : Nat → List Nat → Nat → Int → Nat × Int
  | 0, _, p, index => (p, index)
  | fuel + 1, zl, p, index =>
    if readByte zl p ≠ 255 then
      if index = 0 then (p, index - 1)
      else indexPosLoop fuel zl (p + zipRawEntryLength zl p) (index - 1)
    else (p, index)

/-- `ziplistIndex`: `none` models the C `NULL` return. -/
def ziplistIndex (zl : List Nat) (index : Int) : Option Nat :=
  let r :=
    if index < 0 then
      let index := -index - 1
      let p := getU32 zl 4
      if readByte zl p ≠ 255 then
        indexNegLoop (zl.length + 1) zl p (zipDecodePrevlen zl p).2 index
      else (p, index)
    else indexPosLoop (zl.length + 1) zl headerSize index
  if readByte zl r.1 = 255 ∨ r.2 > 0 then none else some r.1

/-- `ziplistNext`. -/
def ziplistNext (zl : List Nat) (p : Nat) : Option Nat :=
  if readByte zl p = 255 then none
  else
    let p := p + zipRawEntryLength zl p
    if readByte zl p = 255 then none else some p

/-- `ziplistPrev`. -/
def ziplistPrev (zl : List Nat) (p : Nat) : Option Nat :=
  if readByte zl p = 255 then
    let p := getU32 zl 4
    if readByte zl p = 255 then none else some p
  else if p = headerSize then none
  else some (p - (zipDecodePrevlen zl p).2)

/-- The value extracted by `ziplistGet`: string bytes or an integer. -/
inductive ZlValue where
  | str : List Nat → ZlValue
  | int : Int → ZlValue
  deriving Repr, DecidableEq

/-- `ziplistGet` (the `p == NULL` guard lives at the call sites, which pass
an `Option Nat` along). -/
def ziplistGet (zl : List Nat) (p : Nat) : Option ZlValue :=
  if readByte zl p = 255 then none
  else
    let entry := zipEntry zl p
    if zipIsStr entry.encoding then
      some (.str ((zl.drop (p + entry.headersize)).take entry.len))
    else
      some (.int (zipLoadInteger zl (p + entry.headersize) entry.encoding))

/-- `ziplistInsert`. -/
def ziplistInsert (zl : List Nat) (p : Nat) (s : List Nat) : List Nat :=
  ziplistInsertBase zl p s

/-- `ziplistDelete`: also returns the updated entry offset (same offset in
the reallocated blob, as in the source). -/
def ziplistDelete (zl : List Nat) (p : Nat) : List Nat × Nat :=
  (ziplistDeleteBase zl p 1, p)

/-- `ziplistDeleteRange`. -/
def ziplistDeleteRange (zl : List Nat) (index : Int) (num : Nat) : List Nat :=
  match ziplistIndex zl index with
  | none => zl
  | some p => ziplistDeleteBase zl p num

/-- `ziplistCompare`. -/
def ziplistCompare (zl : List Nat) (p : Nat) (sstr : List Nat) : Bool :=
  if readByte zl p = 255 then false
  else
    let entry := zipEntry zl p
    if zipIsStr entry.encoding then
      if entry.len = sstr.length then
        (zl.drop (p + entry.headersize)).take entry.len == sstr
      else false
    else
      match zipTryEncoding sstr with
      | some ve => zipLoadInteger zl (p + entry.headersize) entry.encoding == ve.1
      | none => false

/-- The walking loop of `ziplistLen`. -/
def lenWalk : Nat → List Nat → Nat → Nat → Nat
  | 0, _, _, acc => acc
  | fuel + 1, zl, p, acc =>
    if readByte zl p ≠ 255 then
      lenWalk fuel zl (p + zipRawEntryLength zl p) (acc + 1)
    else acc

/-- `ziplistLen`: the length, and the blob (which is re-written when the walk
finds a small enough count to re-store). -/
def ziplistLen (zl : List Nat) : Nat × List Nat :=
  if getU16 zl 8 < 65535 then (getU16 zl 8, zl)
  else
    let len := lenWalk (zl.length + 1) zl headerSize 0
    (len, if len < 65535 then setU16 zl 8 len else zl)

/-- `ziplistBlobLen`. -/
def ziplistBlobLen (zl : List Nat) : Nat := getU32 zl 0

/-! ### Executable checker for the structural invariant claimed in the spec

The walk follows the entries from the head; at each entry it checks that the
stored prevlen equals the byte length of the preceding entry, and at the
terminator it checks that the bytes field, the tail offset and the count
field have the claimed values. -/

def zlCheckWalk : Nat → List Nat → Nat → Nat → Nat → Nat → Bool
  | 0, _, _, _, _, _ => false
  | fuel + 1, zl, pos, prev, lastStart, count =>
    if zl.length ≤ pos then false
    else if readByte zl pos = 255 then
      pos + 1 == zl.length && getU32 zl 0 == zl.length &&
      getU32 zl 4 == lastStart && getU16 zl 8 == min count 65535
    else
      let e := zipEntry zl pos
      let rawlen := e.headersize + e.len
      e.prevrawlen == prev && zlCheckWalk fuel zl (pos + rawlen) rawlen pos (count + 1)

/-- The structural invariant of the spec, as a decidable whole-blob check:
entry lengths sum (plus header and terminator) to `totalBytes`, `tailOffset`
points at the last entry (at the terminator for an empty list), every
`prevLen` equals its predecessor's byte length, and
`count = min(trueCount, 0xFFFF)`. -/
def zlCheck (zl : List Nat) : Bool := zlCheckWalk (zl.length + 1) zl 10 0 10 0

/-! ### Abstract representation: a ziplist blob as a list of entries

`blocks` rebuilds the byte blocks of consecutive entries, threading each
block's length into the successor's prevlen field, so a blob in the image of
`zlOf` has a correct prevlen chain by construction.  The `Bool` in an entry
records whether its prevlen field uses the 5-byte form (which the cascade
update may retain even for small lengths). -/

inductive ZContent where
  | str : List Nat → ZContent
  | int : Int → Nat → ZContent
  deriving Repr, DecidableEq

/-- The type/length header plus payload bytes of an entry's content. -/
def contentBytes : ZContent → List Nat
  | .str s => zipEncodeLength 0 s.length ++ s
  | .int v e => zipEncodeLength e 0 ++ zipSaveInteger v e

/-- The prevlen field bytes: 1-byte form, or the (possibly forced) 5-byte form. -/
def prevFieldBytes : Bool → Nat → List Nat
  | false, n => [n]
  | true, n => 254 :: natToLE 4 n

/-- One entry's byte block, given the length of its predecessor. -/
def entryBlock (plen : Nat) (e : Bool × ZContent) : List Nat :=
  prevFieldBytes e.1 plen ++ contentBytes e.2

/-- The byte blocks of a list of entries, threading predecessor lengths. -/
def blocks : Nat → List (Bool × ZContent) → List (List Nat)
  | _, [] => []
  | plen, e :: es => entryBlock plen e :: blocks (entryBlock plen e).length es

/-- All entry bytes of the blob. -/
def bodyOf (es : List (Bool × ZContent)) : List Nat := (blocks 0 es).flatten

/-- Offset of the last entry (`tailOffset`); the header size for an empty list. -/
def tailStartOf (es : List (Bool × ZContent)) : Nat :=
  10 + ((blocks 0 es).dropLast.map List.length).sum

/-- Thread the block-length accumulator through a list of entries: starting
from predecessor length `p`, the length of the final block (or `p` itself for
an empty list). -/
def chainEnd : Nat → List (Bool × ZContent) → Nat
  | p, [] => p
  | p, e :: es => chainEnd (entryBlock p e).length es

/-- Byte length of the final entry's block (0 when empty): the prevlen a new
tail entry records. -/
def endPrevLen (es : List (Bool × ZContent)) : Nat := chainEnd 0 es

/-- The `(encoding, lensize, len)` triple that decoding an entry's content
header yields. -/
def contentHeadInfo : ZContent → Nat × Nat × Nat
  | .str s =>
      if s.length ≤ 63 then (0, 1, s.length)
      else if s.length ≤ 16383 then (0x40, 2, s.length)
      else (0x80, 5, s.length)
  | .int _ e => (e, 1, zipIntSize e)

/-- Well-formedness of one entry's content: string bytes are bytes and the
length is below `2^32`; an integer's value fits its encoding. -/
def contentOk : ZContent → Prop
  | .str s => (∀ b ∈ s, b < 256) ∧ s.length < 2 ^ 32
  | .int v e =>
      (e = 0xfe ∧ -128 ≤ v ∧ v ≤ 127) ∨
      (e = 0xc0 ∧ -32768 ≤ v ∧ v ≤ 32767) ∨
      (e = 0xf0 ∧ -8388608 ≤ v ∧ v ≤ 8388607) ∨
      (e = 0xd0 ∧ -2147483648 ≤ v ∧ v ≤ 2147483647) ∨
      (e = 0xe0 ∧ -(2 ^ 63) ≤ v ∧ v ≤ 2 ^ 63 - 1) ∨
      (0xf1 ≤ e ∧ e ≤ 0xfd ∧ v = (e : Int) - 0xf1)

/-- Well-formedness of an entry list, threading predecessor lengths: a 1-byte
prevlen field requires a predecessor shorter than 254 bytes. -/
def entriesOk : Nat → List (Bool × ZContent) → Prop
  | _, [] => True
  | plen, e :: es =>
      (e.1 = false → plen < 254) ∧ plen < 2 ^ 32 ∧ contentOk e.2 ∧
      entriesOk (entryBlock plen e).length es

instance contentOkDecidable : (c : ZContent) → Decidable (contentOk c)
  | .str s =>
      inferInstanceAs (Decidable ((∀ b ∈ s, b < 256) ∧ s.length < 2 ^ 32))
  | .int v e =>
      inferInstanceAs (Decidable (
        (e = 0xfe ∧ -128 ≤ v ∧ v ≤ 127) ∨
        (e = 0xc0 ∧ -32768 ≤ v ∧ v ≤ 32767) ∨
        (e = 0xf0 ∧ -8388608 ≤ v ∧ v ≤ 8388607) ∨
        (e = 0xd0 ∧ -2147483648 ≤ v ∧ v ≤ 2147483647) ∨
        (e = 0xe0 ∧ -(2 ^ 63) ≤ v ∧ v ≤ 2 ^ 63 - 1) ∨
        (0xf1 ≤ e ∧ e ≤ 0xfd ∧ v = (e : Int) - 0xf1)))

instance entriesOkDecidable :
    (plen : Nat) → (es : List (Bool × ZContent)) → Decidable (entriesOk plen es)
  | _, [] => inferInstanceAs (Decidable True)
  | plen, e :: es =>
      have : Decidable (entriesOk (entryBlock plen e).length es) :=
        entriesOkDecidable (entryBlock plen e).length es
      inferInstanceAs (Decidable ((e.1 = false → plen < 254) ∧ plen < 2 ^ 32 ∧
        contentOk e.2 ∧ entriesOk (entryBlock plen e).length es))

/-- The 10 header bytes of an assembled blob. -/
def hdrOf (es : List (Bool × ZContent)) (cnt : Nat) : List Nat :=
  natToLE 4 (11 + (bodyOf es).length) ++ natToLE 4 (tailStartOf es) ++ natToLE 2 cnt

/-- Assemble a blob from entries and a stored count field. -/
def zlOf (es : List (Bool × ZContent)) (cnt : Nat) : List Nat :=
  natToLE 4 (11 + (bodyOf es).length) ++ natToLE 4 (tailStartOf es) ++
    natToLE 2 cnt ++ bodyOf es ++ [255]

/-- `zl` is a structurally well-formed ziplist blob representing `es`. -/
def Reps (zl : List Nat) (es : List (Bool × ZContent)) : Prop :=
  ∃ cnt, cnt < 65536 ∧ zl = zlOf es cnt ∧ entriesOk 0 es ∧
    11 + (bodyOf es).length < 2 ^ 32

/-- The count field invariant that reachable ziplists actually maintain: the
field is exact below the `0xFFFF` saturation point, but may stay at `0xFFFF`
after deletions (the decrement is skipped at `UINT16_MAX`). -/
def CountOk (zl : List Nat) (es : List (Bool × ZContent)) : Prop :=
  getU16 zl 8 = min es.length 65535 ∨ getU16 zl 8 = 65535

/-- `push(tail, X)` followed by `delete(tail)` (the tail entry located with
`indexAt(-1)`), the round-trip of the spec's algebraic property. -/
def pushThenDeleteTail (zl X : List Nat) : List Nat :=
  ziplistDeleteRange (ziplistPush zl X 1) (-1) 1

/-- The entry that `push(tail, X)` appends to a blob representing `es`: its
content is the parsed integer when `zipTryEncoding` succeeds and the raw
string otherwise, and its prevlen field uses the 5-byte form exactly when the
previous tail entry occupies at least 254 bytes. -/
def pushedEntry (es : List (Bool × ZContent)) (X : List Nat) : Bool × ZContent :=
  (decide (254 ≤ endPrevLen es),
   match zipTryEncoding X with
   | some ve => ZContent.int ve.1 ve.2
   | none => ZContent.str X)

/-- Entry start offsets, threading predecessor lengths like `blocks`. -/
def startList : Nat → Nat → List (Bool × ZContent) → List Nat
  | _, _, [] => []
  | off, plen, e :: es =>
    off :: startList (off + (entryBlock plen e).length) (entryBlock plen e).length es

/-- The specified result of `indexAt(i)` on a list of `n` entries: the `i`-th
entry start for `0 ≤ i ≤ n-1`, the `(n+i)`-th for `-n ≤ i < 0`, else NULL. -/
def idxSpec (es : List (Bool × ZContent)) (i : Int) : Option Nat :=
  if 0 ≤ i ∧ i ≤ (es.length : Int) - 1 then some ((startList 10 0 es).getD i.toNat 0)
  else if -(es.length : Int) ≤ i ∧ i < 0 then
    some ((startList 10 0 es).getD (es.length - (-i).toNat) 0)
  else none

/-- A small two-entry list ("a" and "bc") used to exercise the index range
specification on a concrete well-formed blob. -/
def wEs : List (Bool × ZContent) := [(false, ZContent.str [97]), (false, ZContent.str [98, 99])]

/-! ### Definitions used to state the claims about encoding choice -/

/-- Does integer encoding `e` fit value `v`?  (`imm4` fits 0..12, `i8` fits
the int8 range, and so on.) -/
def encFits (e : Nat) (v : Int) : Prop :=
  if e = 0xf1 then 0 ≤ v ∧ v ≤ 12
  else if e = 0xfe then -128 ≤ v ∧ v ≤ 127
  else if e = 0xc0 then -32768 ≤ v ∧ v ≤ 32767
  else if e = 0xf0 then -8388608 ≤ v ∧ v ≤ 8388607
  else if e = 0xd0 then -2147483648 ≤ v ∧ v ≤ 2147483647
  else if e = 0xe0 then True
  else False

/-- The trial order of the integer encodings (`imm4` is represented by its
class marker `0xf1`). -/
def encOrder : List Nat := [0xf1, 0xfe, 0xc0, 0xf0, 0xd0, 0xe0]

/-- The encoding class of a chosen encoding byte (all `imm4` bytes collapse
to the marker `0xf1`). -/
def encClass (e : Nat) : Nat := if 0xf1 ≤ e ∧ e ≤ 0xfd then 0xf1 else e

/-- The byte count of the smallest string-length header able to hold `n`:
the 1-byte form holds lengths up to 63, the 2-byte form up to 16383, the
5-byte form up to `2^32 - 1`. -/
def smallestStrHeader (n : Nat) : Nat :=
  if n ≤ 63 then 1 else if n ≤ 16383 then 2 else 5

/-! ### Concrete scenario states used by the claims -/

/-- ASCII bytes of the strings in the spec's order-preservation scenario. -/
def litFoo : List Nat := [102, 111, 111]

def litQuux : List Nat := [113, 117, 117, 120]

def litHello : List Nat := [104, 101, 108, 108, 111]

def lit1024 : List Nat := [49, 48, 50, 52]

/-- Scenario of spec §8: empty, then pushes of "foo", "quux", "hello", "1024". -/
def scenA1 : List Nat := ziplistPush ziplistNew litFoo 1

def scenA2 : List Nat := ziplistPush scenA1 litQuux 1

def scenA3 : List Nat := ziplistPush scenA2 litHello 0

def scenA4 : List Nat := ziplistPush scenA3 lit1024 1

/-- `push(tail,"1024")` on an empty list (cross-encoding compare scenario). -/
def scenB : List Nat := ziplistPush ziplistNew lit1024 1

/-- 252 bytes of `'b'`: an entry long enough (total 255 ≥ 254) to force its
successor's prevlen field from 1 to 5 bytes. -/
def big252 : List Nat := List.replicate 252 98

/-- 250 bytes of `'c'`: an entry of total length 253, just under the prevlen
boundary. -/
def big250 : List Nat := List.replicate 250 99

/-- Bug scenario (claim C1): ["a", E, "f", "x"] with E of length 253; a big
insert before E grows the prevlen chain, deleting it leaves "f" with a forced
5-byte prevlen field holding a small value (the cascade never shrinks), and
then inserting an empty entry before "f" finds `nextdiff = -4` with
`reqlen = 2`, shrinking the realloc below the live data. -/
def scenE0 : List Nat :=
  ziplistPush (ziplistPush (ziplistPush (ziplistPush ziplistNew [97] 1) big250 1)
    [102] 1) [120] 1

def scenE1 : List Nat := ziplistInsert scenE0 ((ziplistIndex scenE0 1).getD 0) big252

def scenE2 : List Nat := ziplistDeleteRange scenE1 1 1

def scenE3 : List Nat := ziplistInsert scenE2 ((ziplistIndex scenE2 2).getD 0) []

/-- Literal byte blobs of the intermediate states of the C1 bug scenario
(each stage is proved equal to the corresponding operation result). -/
def litC1a : List Nat := [14, 0, 0, 0, 10, 0, 0, 0, 1, 0, 0, 1, 97, 255]

def litC1b : List Nat := [11, 1, 0, 0, 13, 0, 0, 0, 2, 0, 0, 1, 97, 3, 64, 250] ++ List.replicate 250 99 ++ [255]

def litC1c : List Nat := [14, 1, 0, 0, 10, 1, 0, 0, 3, 0, 0, 1, 97, 3, 64, 250] ++ List.replicate 250 99 ++ [253, 1, 102, 255]

def litC1e0 : List Nat := [17, 1, 0, 0, 13, 1, 0, 0, 4, 0, 0, 1, 97, 3, 64, 250] ++ List.replicate 250 99 ++ [253, 1, 102, 3, 1, 120, 255]

def litC1e1 : List Nat := [24, 2, 0, 0, 20, 2, 0, 0, 5, 0, 0, 1, 97, 3, 64, 252] ++ List.replicate 252 98 ++ [254, 255, 0, 0, 0, 64, 250] ++ List.replicate 250 99 ++ [254, 1, 1, 0, 0, 1, 102, 7, 1, 120, 255]

def litC1e2 : List Nat := [21, 1, 0, 0, 17, 1, 0, 0, 4, 0, 0, 1, 97, 3, 64, 250] ++ List.replicate 250 99 ++ [254, 253, 0, 0, 0, 1, 102, 7, 1, 120, 255]

def litC1e3 : List Nat := [19, 1, 0, 0, 15, 1, 0, 0, 5, 0, 0, 1, 97, 3, 64, 250] ++ List.replicate 250 99 ++ [253, 0, 2, 1, 102, 3, 255, 0, 255]

/-- A minimal blob fragment for the cascade no-shrink step: an entry "a" at
offset 0 whose raw length 3 fits a 1-byte prevlen field, followed by an entry
"b" whose prevlen field is already 5 bytes, holding a stale value 7. -/
def litW : List Nat := [0, 1, 97, 254, 7, 0, 0, 0, 1, 98, 255]

/-- The entry list representing a ziplist with 65534 one-byte string entries
(the C5 saturation-boundary counterexample). -/
def esBig : List (Bool × ZContent) :=
  (false, ZContent.str [97]) :: List.replicate 65533 (false, ZContent.str [97])

/-- Its blob, with the exact count field 65534. -/
def zlBig : List Nat := zlOf esBig 65534

/-! ## Toolkit lemmas -/

theorem lorEqAdd (a b k : Nat) (hb : b < 2 ^ k) : ((a <<< k) ||| b) = a * 2 ^ k + b := by
  apply Nat.eq_of_testBit_eq
  intro j
  rw [Nat.mul_comm a (2 ^ k), Nat.testBit_or, Nat.testBit_shiftLeft,
    Nat.testBit_mul_pow_two_add a hb j]
  by_cases h : j < k
  · simp [h, Nat.not_le.2 h]
  · have hb' : Nat.testBit b j = false :=
      Nat.testBit_lt_two_pow
        (lt_of_lt_of_le hb (Nat.pow_le_pow_right (by norm_num) (Nat.not_lt.1 h)))
    simp [h, Nat.not_lt.1 h, hb']

theorem and63 (a : Nat) : a &&& 63 = a % 64 := by
  have := Nat.and_pow_two_sub_one_eq_mod a 6
  norm_num at this
  exact this

theorem and255 (a : Nat) : a &&& 255 = a % 256 := by
  have := Nat.and_pow_two_sub_one_eq_mod a 8
  norm_num at this
  exact this

theorem and192 (a : Nat) (h : a < 64) : a &&& 192 = 0 := by
  apply Nat.eq_of_testBit_eq
  intro i
  rw [Nat.testBit_and]
  simp only [Nat.zero_testBit]
  by_cases hi : i < 6
  · have : Nat.testBit 192 i = false := by interval_cases i <;> decide
    simp [this]
  · have h2 : (64 : Nat) ≤ 2 ^ i := by
      calc (64 : Nat) = 2 ^ 6 := by norm_num
      _ ≤ 2 ^ i := Nat.pow_le_pow_right (by norm_num) (by omega)
    have : Nat.testBit a i = false := Nat.testBit_lt_two_pow (lt_of_lt_of_le h h2)
    simp [this]

theorem readByte_append_left {a : List Nat} (b : List Nat) {i : Nat} (h : i < a.length) :
    readByte (a ++ b) i = readByte a i :=
  List.getD_append a b 0 i h

theorem readByte_append_right (a b : List Nat) (i : Nat) :
    readByte (a ++ b) (a.length + i) = readByte b i := by
  unfold readByte
  rw [List.getD_append_right a b 0 (a.length + i) (Nat.le_add_right _ _)]
  congr 1
  omega

theorem readByte_cons_succ (x : Nat) (l : List Nat) (i : Nat) :
    readByte (x :: l) (i + 1) = readByte l i := List.getD_cons_succ

theorem readByte_cons_zero (x : Nat) (l : List Nat) : readByte (x :: l) 0 = x :=
  List.getD_cons_zero

theorem readLE_append_right (a b : List Nat) (i k : Nat) :
    readLE (a ++ b) (a.length + i) k = readLE b i k := by
  induction k generalizing i with
  | zero => rfl
  | succ k ih =>
    unfold readLE
    rw [readByte_append_right, Nat.add_assoc, ih]

theorem readLE_cons_succ (x : Nat) (l : List Nat) (i k : Nat) :
    readLE (x :: l) (i + 1) k = readLE l i k := by
  have := readLE_append_right [x] l i k
  simpa [Nat.add_comm 1 i] using this

theorem natToLE_length (k n : Nat) : (natToLE k n).length = k := by
  induction k generalizing n with
  | zero => rfl
  | succ k ih => unfold natToLE; simp [ih]

theorem natToLE_lt (k n : Nat) : ∀ b ∈ natToLE k n, b < 256 := by
  induction k generalizing n with
  | zero => intro b hb; cases hb
  | succ k ih =>
    intro b hb
    unfold natToLE at hb
    rcases List.mem_cons.1 hb with h | h
    · omega
    · exact ih (n / 256) b h

theorem readLE_natToLE (k n : Nat) (rest : List Nat) :
    readLE (natToLE k n ++ rest) 0 k = n % 2 ^ (8 * k) := by
  induction k generalizing n with
  | zero => simp [readLE, Nat.mod_one]
  | succ k ih =>
    show readLE ((n % 256) :: (natToLE k (n / 256) ++ rest)) 0 (k + 1) = _
    unfold readLE
    rw [readByte_cons_zero, show (0 + 1 : Nat) = 1 from rfl]
    have : readLE ((n % 256) :: (natToLE k (n / 256) ++ rest)) 1 k =
        readLE (natToLE k (n / 256) ++ rest) 0 k := by
      have := readLE_cons_succ (n % 256) (natToLE k (n / 256) ++ rest) 0 k
      simpa using this
    rw [this, ih]
    have h2 : 2 ^ (8 * (k + 1)) = 256 * 2 ^ (8 * k) := by ring
    rw [h2, Nat.mod_mul]

theorem writeBytes_append (zl : List Nat) (off : Nat) (bs cs : List Nat) :
    writeBytes zl off (bs ++ cs) = writeBytes (writeBytes zl off bs) (off + bs.length) cs := by
  induction bs generalizing zl off with
  | nil => simp [writeBytes]
  | cons b bs ih =>
    show writeBytes (setByte zl off b) (off + 1) (bs ++ cs) = _
    rw [ih]
    have harith : off + 1 + bs.length = off + (b :: bs).length := by
      simp
      omega
    rw [harith]
    rfl

theorem setByte_append_cover (a : List Nat) (m : Nat) (c : List Nat) (v : Nat) :
    setByte (a ++ m :: c) a.length v = a ++ (v % 256) :: c := by
  unfold setByte
  rw [List.set_append]
  simp

theorem writeBytes_cover (bs : List Nat) :
    ∀ (mid a c : List Nat), mid.length = bs.length →
      writeBytes (a ++ (mid ++ c)) a.length bs = a ++ (bs.map (· % 256) ++ c) := by
  induction bs with
  | nil =>
    intro mid a c h
    have : mid = [] := List.eq_nil_of_length_eq_zero h
    subst this
    rfl
  | cons b bs ih =>
    intro mid a c h
    match mid, h with
    | m :: mid, h =>
      show writeBytes (setByte (a ++ (m :: (mid ++ c))) a.length b) (a.length + 1) (bs) = _
      rw [setByte_append_cover]
      have hsplit : a ++ (b % 256) :: (mid ++ c) = (a ++ [b % 256]) ++ (mid ++ c) := by
        simp
      rw [hsplit]
      have hlen : (a ++ [b % 256]).length = a.length + 1 := by simp
      rw [← hlen]
      rw [ih mid (a ++ [b % 256]) c (by simpa using h)]
      simp

theorem map_mod_of_lt {bs : List Nat} (h : ∀ b ∈ bs, b < 256) :
    bs.map (· % 256) = bs := by
  induction bs with
  | nil => rfl
  | cons b bs ih =>
    simp only [List.map_cons]
    rw [Nat.mod_eq_of_lt (h b (by simp)), ih fun x hx => h x (by simp [hx])]

/-- `writeBytes_cover` when the written bytes are genuine bytes. -/
theorem writeBytes_cover' {bs : List Nat} (mid : List Nat) (a c : List Nat)
    (hlen : mid.length = bs.length) (hlt : ∀ b ∈ bs, b < 256) :
    writeBytes (a ++ (mid ++ c)) a.length bs = a ++ (bs ++ c) := by
  rw [writeBytes_cover bs mid a c hlen, map_mod_of_lt hlt]

theorem readRange_eq (A S B : List Nat) (src n : Nat) (hsrc : A.length = src)
    (hn : S.length = n) :
    (List.range n).map (fun j => readByte (A ++ S ++ B) (src + j)) = S := by
  subst hsrc hn
  apply List.ext_getElem
  · simp
  · intro i h1 h2
    simp only [List.getElem_map, List.getElem_range]
    rw [List.append_assoc, readByte_append_right]
    unfold readByte
    rw [List.getD_append S B 0 i h2]
    exact List.getD_eq_getElem S 0 h2

/-- `memmove` when the source region is exactly the sub-list `S`. -/
theorem memmove_src (A S B : List Nat) (dst : Nat) :
    memmove (A ++ S ++ B) dst A.length S.length = writeBytes (A ++ S ++ B) dst S := by
  unfold memmove
  rw [readRange_eq A S B A.length S.length rfl rfl]

theorem and192_of_64 (q : Nat) (h : q < 64) : (64 + q) &&& 192 = 64 := by
  apply Nat.eq_of_testBit_eq
  intro i
  rw [Nat.testBit_and]
  have h64 : (64 + q : Nat) = 2 ^ 6 * 1 + q := by norm_num
  rw [h64, Nat.testBit_mul_pow_two_add 1 h i]
  by_cases hi : i < 6
  · have h192 : Nat.testBit 192 i = false := by interval_cases i <;> decide
    have h64' : Nat.testBit 64 i = false := by interval_cases i <;> decide
    simp [hi, h192, h64']
  · by_cases hi6 : i = 6
    · subst hi6
      simp only [Nat.lt_irrefl, if_false]
      decide
    · have h1 : Nat.testBit 1 (i - 6) = false := by
        have hle : (1 : Nat) < 2 ^ (i - 6) := Nat.one_lt_two_pow_iff.2 (by omega)
        exact Nat.testBit_lt_two_pow hle
      have h64' : Nat.testBit 64 i = false := by
        have hle : (64 : Nat) < 2 ^ i :=
          lt_of_lt_of_le (by norm_num)
            (Nat.pow_le_pow_right (by norm_num) (show 7 ≤ i by omega))
        exact Nat.testBit_lt_two_pow hle
      simp [hi, h1, h64']

/-! ### Reading the prevlen field and entry header at a block boundary -/

/-- Byte size of a prevlen field form. -/
def prevFieldSize : Bool → Nat
  | false => 1
  | true => 5

theorem prevFieldBytes_length (big : Bool) (n : Nat) :
    (prevFieldBytes big n).length = prevFieldSize big := by
  cases big <;> simp [prevFieldBytes, prevFieldSize, natToLE_length]

/-- Read the byte right after a known `pre`. -/
theorem readByte_at (pre : List Nat) (x : Nat) (rest : List Nat) :
    readByte (pre ++ x :: rest) pre.length = x := by
  have := readByte_append_right pre (x :: rest) 0
  simpa using this

/-- Read `k` bytes starting right after `pre ++ [x]`. -/
theorem readLE_at_cons (pre : List Nat) (x : Nat) (rest : List Nat) (k : Nat) :
    readLE (pre ++ x :: rest) (pre.length + 1) k = readLE rest 0 k := by
  have h1 := readLE_append_right pre (x :: rest) 1 k
  have h2 := readLE_cons_succ x rest 0 k
  rw [h1]
  simpa using h2

theorem zipDecodePrevlen_cover (pre : List Nat) (big : Bool) (plen : Nat)
    (rest : List Nat) (hsmall : big = false → plen < 254) (hlt : plen < 2 ^ 32) :
    zipDecodePrevlen (pre ++ (prevFieldBytes big plen ++ rest)) pre.length =
      (prevFieldSize big, plen) := by
  cases big with
  | false =>
    have hp : plen < 254 := hsmall rfl
    show zipDecodePrevlen (pre ++ plen :: rest) pre.length = (1, plen)
    unfold zipDecodePrevlen
    rw [readByte_at]
    simp [hp]
  | true =>
    show zipDecodePrevlen (pre ++ 254 :: (natToLE 4 plen ++ rest)) pre.length = (5, plen)
    unfold zipDecodePrevlen
    rw [readByte_at, readLE_at_cons, readLE_natToLE]
    rw [Nat.mod_eq_of_lt (lt_of_lt_of_le hlt (by norm_num))]
    simp

theorem or64 (q : Nat) (h : q < 64) : 64 ||| q = 64 + q := by
  have := lorEqAdd 1 q 6 h
  simpa using this

theorem zipEncodeLength_str_small {n : Nat} (h : n ≤ 63) :
    zipEncodeLength 0 n = [n] := by
  unfold zipEncodeLength
  have h0 : zipIsStr 0 = true := by decide
  rw [h0]
  simp [h]

theorem zipEncodeLength_str_mid {n : Nat} (h1 : 64 ≤ n) (h2 : n ≤ 16383) :
    zipEncodeLength 0 n = [64 + n / 256, n % 256] := by
  unfold zipEncodeLength
  have h0 : zipIsStr 0 = true := by decide
  rw [h0]
  have hq : (n >>> 8) &&& 63 = n / 256 := by
    rw [Nat.shiftRight_eq_div_pow, and63]
    norm_num
    omega
  simp only [if_true, show ¬(n ≤ 63) by omega, if_false, h2, if_true, hq, and255]
  rw [or64 (n / 256) (by omega)]

theorem zipEncodeLength_str_big {n : Nat} (h1 : 16384 ≤ n) :
    zipEncodeLength 0 n =
      [128, n / 2 ^ 24 % 256, n / 2 ^ 16 % 256, n / 2 ^ 8 % 256, n % 256] := by
  unfold zipEncodeLength
  have h0 : zipIsStr 0 = true := by decide
  rw [h0]
  simp only [show ¬(n ≤ 63) by omega, if_false, show ¬(n ≤ 16383) by omega, if_true, and255]
  rw [Nat.shiftRight_eq_div_pow, Nat.shiftRight_eq_div_pow, Nat.shiftRight_eq_div_pow]

theorem zipEncodeLength_int {e : Nat} (h : ¬ zipIsStr e = true) (n : Nat) :
    zipEncodeLength e n = [e] := by
  unfold zipEncodeLength
  simp [h]

/-- All integer encodings are at least 192, so `zipIsStr` rejects them. -/
theorem intEnc_not_str {v : Int} {e : Nat} (h : contentOk (.int v e)) :
    192 ≤ e := by
  unfold contentOk at h
  rcases h with ⟨he, _⟩ | ⟨he, _⟩ | ⟨he, _⟩ | ⟨he, _⟩ | ⟨he, _⟩ | ⟨he, _, _⟩ <;> omega

theorem zipIsStr_false_of_ge {e : Nat} (he : 192 ≤ e) (he2 : e < 256) :
    zipIsStr e = false := by
  unfold zipIsStr
  simp only [decide_eq_false_iff_not, Nat.not_lt]
  have : e &&& 192 = 192 := by
    have h2 : e = 192 + (e - 192) := by omega
    rw [h2]
    have := and192_of_64 0 (by norm_num)
    apply Nat.eq_of_testBit_eq
    intro i
    rw [Nat.testBit_and]
    have h192 : (192 + (e - 192) : Nat) = 2 ^ 6 * 3 + (e - 192) := by norm_num
    rw [h192, Nat.testBit_mul_pow_two_add 3 (show e - 192 < 2 ^ 6 by omega) i]
    by_cases hi : i < 6
    · have : Nat.testBit 192 i = false := by interval_cases i <;> decide
      simp [hi, this]
    · have h3 : Nat.testBit 192 i = Nat.testBit 3 (i - 6) := by
        rcases Nat.lt_or_ge i 8 with h8 | h8
        · interval_cases i <;> decide
        · have a1 : Nat.testBit 192 i = false :=
            Nat.testBit_lt_two_pow (lt_of_lt_of_le (by norm_num)
              (Nat.pow_le_pow_right (by norm_num) h8))
          have a2 : Nat.testBit 3 (i - 6) = false :=
            Nat.testBit_lt_two_pow (lt_of_lt_of_le (by norm_num)
              (Nat.pow_le_pow_right (by norm_num) (show 2 ≤ i - 6 by omega)))
          rw [a1, a2]
      simp [hi, h3]
  omega

theorem contentOk_int_lt {v : Int} {e : Nat} (h : contentOk (.int v e)) : e < 256 := by
  unfold contentOk at h
  rcases h with ⟨he, _⟩ | ⟨he, _⟩ | ⟨he, _⟩ | ⟨he, _⟩ | ⟨he, _⟩ | ⟨he, _, _⟩ <;> omega

theorem zipDecodeLength_cover (pre : List Nat) (c : ZContent) (rest : List Nat)
    (h : contentOk c) :
    zipDecodeLength (pre ++ (contentBytes c ++ rest)) pre.length = contentHeadInfo c := by
  cases c with
  | str s =>
    rcases Nat.lt_or_ge s.length 64 with hs | hs
    · -- 1-byte header
      have hb : contentBytes (.str s) ++ rest = s.length :: (s ++ rest) := by
        rw [show contentBytes (.str s) = zipEncodeLength 0 s.length ++ s from rfl,
          zipEncodeLength_str_small (by omega)]
        simp
      rw [hb]
      simp only [zipDecodeLength, zipEntryEncoding, readByte_at]
      have henc : (if s.length < 192 then s.length &&& 192 else s.length) = 0 := by
        rw [if_pos (show s.length < 192 by omega), and192 _ hs]
      rw [henc, if_pos (show (0 : Nat) < 192 by norm_num), if_pos rfl, and63,
        Nat.mod_eq_of_lt hs]
      simp only [contentHeadInfo]
      simp [show s.length ≤ 63 by omega]
    · rcases Nat.lt_or_ge s.length 16384 with hs2 | hs2
      · -- 2-byte header
        have hb : contentBytes (.str s) ++ rest =
            (64 + s.length / 256) :: ((s.length % 256) :: (s ++ rest)) := by
          rw [show contentBytes (.str s) = zipEncodeLength 0 s.length ++ s from rfl,
            zipEncodeLength_str_mid (by omega) (by omega)]
          simp
        rw [hb]
        have hq : s.length / 256 < 64 := by omega
        have hr1 : readByte
            (pre ++ (64 + s.length / 256) :: ((s.length % 256) :: (s ++ rest)))
            (pre.length + 1) = s.length % 256 := by
          rw [readByte_append_right pre _ 1]
          rfl
        simp only [zipDecodeLength, zipEntryEncoding, readByte_at, hr1]
        have henc : (if 64 + s.length / 256 < 192 then (64 + s.length / 256) &&& 192
            else 64 + s.length / 256) = 64 := by
          rw [if_pos (show 64 + s.length / 256 < 192 by omega), and192_of_64 _ hq]
        rw [henc, if_pos (show (64 : Nat) < 192 by norm_num),
          if_neg (show ¬((64 : Nat) = 0) by norm_num), if_pos rfl]
        have h63 : (64 + s.length / 256) &&& 63 = s.length / 256 := by
          rw [and63]
          omega
        have hlor : ((s.length / 256) <<< 8) ||| (s.length % 256) = s.length := by
          rw [lorEqAdd (s.length / 256) (s.length % 256) 8 (by omega)]
          omega
        rw [h63, hlor]
        simp only [contentHeadInfo]
        simp [show ¬(s.length ≤ 63) by omega, show s.length ≤ 16383 by omega]
      · -- 5-byte header
        have hb : contentBytes (.str s) ++ rest = 128 :: ((s.length / 2 ^ 24 % 256) ::
            (s.length / 2 ^ 16 % 256) :: (s.length / 2 ^ 8 % 256) :: (s.length % 256) ::
            (s ++ rest)) := by
          rw [show contentBytes (.str s) = zipEncodeLength 0 s.length ++ s from rfl,
            zipEncodeLength_str_big (by omega)]
          simp
        have hlen : s.length < 2 ^ 32 := h.2
        rw [hb]
        have hrd : ∀ i, readByte (pre ++ 128 :: ((s.length / 2 ^ 24 % 256) ::
            (s.length / 2 ^ 16 % 256) :: (s.length / 2 ^ 8 % 256) :: (s.length % 256) ::
            (s ++ rest))) (pre.length + i) = readByte (128 :: (s.length / 2 ^ 24 % 256) ::
            (s.length / 2 ^ 16 % 256) :: (s.length / 2 ^ 8 % 256) :: (s.length % 256) ::
            (s ++ rest)) i :=
          fun i => readByte_append_right pre _ i
        simp only [zipDecodeLength, zipEntryEncoding, readByte_at, hrd]
        have e1 : readByte (128 :: (s.length / 2 ^ 24 % 256) :: (s.length / 2 ^ 16 % 256) ::
            (s.length / 2 ^ 8 % 256) :: (s.length % 256) :: (s ++ rest)) 1 =
            s.length / 2 ^ 24 % 256 := rfl
        have e2 : readByte (128 :: (s.length / 2 ^ 24 % 256) :: (s.length / 2 ^ 16 % 256) ::
            (s.length / 2 ^ 8 % 256) :: (s.length % 256) :: (s ++ rest)) 2 =
            s.length / 2 ^ 16 % 256 := rfl
        have e3 : readByte (128 :: (s.length / 2 ^ 24 % 256) :: (s.length / 2 ^ 16 % 256) ::
            (s.length / 2 ^ 8 % 256) :: (s.length % 256) :: (s ++ rest)) 3 =
            s.length / 2 ^ 8 % 256 := rfl
        have e4 : readByte (128 :: (s.length / 2 ^ 24 % 256) :: (s.length / 2 ^ 16 % 256) ::
            (s.length / 2 ^ 8 % 256) :: (s.length % 256) :: (s ++ rest)) 4 =
            s.length % 256 := rfl
        rw [e1, e2, e3, e4]
        have henc : (if (128 : Nat) < 192 then (128 : Nat) &&& 192 else 128) = 128 := by
          decide
        rw [henc, if_pos (show (128 : Nat) < 192 by norm_num),
          if_neg (show ¬((128 : Nat) = 0) by norm_num),
          if_neg (show ¬((128 : Nat) = 64) by norm_num)]
        have hbe : ((s.length / 2 ^ 24 % 256) <<< 24) ||| ((s.length / 2 ^ 16 % 256) <<< 16) |||
            ((s.length / 2 ^ 8 % 256) <<< 8) ||| (s.length % 256) = s.length := by
          have l4 : s.length % 256 < 2 ^ 8 := by omega
          have v3 := lorEqAdd (s.length / 2 ^ 8 % 256) (s.length % 256) 8 l4
          have l3 : s.length / 2 ^ 8 % 256 * 2 ^ 8 + s.length % 256 < 2 ^ 16 := by
            have := Nat.mod_lt (s.length / 2 ^ 8) (show 0 < 256 by norm_num)
            omega
          have v2 := lorEqAdd (s.length / 2 ^ 16 % 256)
            (s.length / 2 ^ 8 % 256 * 2 ^ 8 + s.length % 256) 16 l3
          have l2 : s.length / 2 ^ 16 % 256 * 2 ^ 16 +
              (s.length / 2 ^ 8 % 256 * 2 ^ 8 + s.length % 256) < 2 ^ 24 := by
            have := Nat.mod_lt (s.length / 2 ^ 16) (show 0 < 256 by norm_num)
            omega
          have v1 := lorEqAdd (s.length / 2 ^ 24 % 256)
            (s.length / 2 ^ 16 % 256 * 2 ^ 16 +
              (s.length / 2 ^ 8 % 256 * 2 ^ 8 + s.length % 256)) 24 l2
          rw [Nat.lor_assoc, Nat.lor_assoc, v3, v2, v1]
          omega
        rw [hbe]
        simp only [contentHeadInfo]
        simp [show ¬(s.length ≤ 63) by omega, show ¬(s.length ≤ 16383) by omega]
  | int v e =>
    have h192 : 192 ≤ e := intEnc_not_str h
    have h256 : e < 256 := contentOk_int_lt h
    have hb : contentBytes (.int v e) ++ rest = e :: (zipSaveInteger v e ++ rest) := by
      rw [show contentBytes (.int v e) = zipEncodeLength e 0 ++ zipSaveInteger v e from rfl,
        zipEncodeLength_int (by rw [zipIsStr_false_of_ge h192 h256]; simp)]
      simp
    rw [hb]
    simp only [zipDecodeLength, zipEntryEncoding, readByte_at]
    have henc : (if e < 192 then e &&& 192 else e) = e := by
      rw [if_neg (show ¬(e < 192) by omega)]
    rw [henc, if_neg (show ¬(e < 192) by omega)]
    simp only [contentHeadInfo]

/-! ### Entry block lemmas -/

theorem zipSaveInteger_length {v : Int} {e : Nat} (h : contentOk (.int v e)) :
    (zipSaveInteger v e).length = zipIntSize e := by
  unfold contentOk at h
  unfold zipSaveInteger zipIntSize
  rcases h with ⟨he, _⟩ | ⟨he, _⟩ | ⟨he, _⟩ | ⟨he, _⟩ | ⟨he, _⟩ | ⟨he1, he2, _⟩
  · subst he
    simp
  · subst he
    simp [natToLE_length]
  · subst he
    simp [natToLE_length]
  · subst he
    simp [natToLE_length]
  · subst he
    simp [natToLE_length]
  · rw [if_neg (by omega), if_neg (by omega), if_neg (by omega), if_neg (by omega),
      if_neg (by omega)]
    rw [if_neg (by omega), if_neg (by omega), if_neg (by omega), if_neg (by omega),
      if_neg (by omega)]
    rfl

theorem contentBytes_length {c : ZContent} (h : contentOk c) :
    (contentBytes c).length = (contentHeadInfo c).2.1 + (contentHeadInfo c).2.2 := by
  cases c with
  | str s =>
    show (zipEncodeLength 0 s.length ++ s).length = _
    rcases Nat.lt_or_ge s.length 64 with hs | hs
    · rw [zipEncodeLength_str_small (by omega)]
      simp only [contentHeadInfo]
      simp [show s.length ≤ 63 by omega]
      omega
    · rcases Nat.lt_or_ge s.length 16384 with hs2 | hs2
      · rw [zipEncodeLength_str_mid (by omega) (by omega)]
        simp only [contentHeadInfo]
        simp [show ¬(s.length ≤ 63) by omega, show s.length ≤ 16383 by omega]
        omega
      · rw [zipEncodeLength_str_big (by omega)]
        simp only [contentHeadInfo]
        simp [show ¬(s.length ≤ 63) by omega, show ¬(s.length ≤ 16383) by omega]
        omega
  | int v e =>
    show (zipEncodeLength e 0 ++ zipSaveInteger v e).length = _
    rw [zipEncodeLength_int
      (by rw [zipIsStr_false_of_ge (intEnc_not_str h) (contentOk_int_lt h)]; simp)]
    simp only [contentHeadInfo]
    simp [zipSaveInteger_length h]
    omega

theorem entryBlock_length (plen : Nat) (e : Bool × ZContent) (h : contentOk e.2) :
    (entryBlock plen e).length =
      prevFieldSize e.1 + (contentHeadInfo e.2).2.1 + (contentHeadInfo e.2).2.2 := by
  unfold entryBlock
  rw [List.length_append, prevFieldBytes_length, contentBytes_length h]
  omega

theorem zipSaveInteger_lt (v : Int) (e : Nat) : ∀ b ∈ zipSaveInteger v e, b < 256 := by
  intro b hb
  unfold zipSaveInteger at hb
  split at hb
  · rcases List.mem_singleton.1 hb with h
    unfold twosComp at h
    have h0 : (0 : Int) ≤ v % ((2 ^ 8 : Nat) : Int) := Int.emod_nonneg v (by norm_num)
    have h1 : v % ((2 ^ 8 : Nat) : Int) < ((2 ^ 8 : Nat) : Int) :=
      Int.emod_lt_of_pos v (by norm_num)
    omega
  · split at hb
    · exact natToLE_lt _ _ b hb
    · split at hb
      · exact natToLE_lt 4 _ b (List.mem_of_mem_drop hb)
      · split at hb
        · exact natToLE_lt _ _ b hb
        · split at hb
          · exact natToLE_lt _ _ b hb
          · cases hb

theorem and255_lt (x : Nat) : x &&& 255 < 256 := by
  rw [and255]
  omega

theorem zipEncodeLength_lt (e n : Nat) (he : e < 256) : ∀ b ∈ zipEncodeLength e n, b < 256 := by
  unfold zipEncodeLength
  intro b hb
  by_cases hstr : zipIsStr e = true
  · rw [if_pos hstr] at hb
    rcases Nat.lt_or_ge n 64 with h1 | h1
    · rw [if_pos (by omega)] at hb
      rcases List.mem_singleton.1 hb with h
      omega
    · rcases Nat.lt_or_ge n 16384 with h2 | h2
      · rw [if_neg (by omega), if_pos (by omega)] at hb
        have hq : (n >>> 8) &&& 63 < 64 := by
          rw [and63]
          omega
        rcases List.mem_cons.1 hb with h | h
        · rw [h, or64 _ hq]
          omega
        · rcases List.mem_singleton.1 h with h
          rw [h]
          exact and255_lt n
      · rw [if_neg (by omega), if_neg (by omega)] at hb
        simp only [List.mem_cons, List.not_mem_nil, or_false] at hb
        rcases hb with h | h | h | h | h <;> rw [h]
        · omega
        · exact and255_lt _
        · exact and255_lt _
        · exact and255_lt _
        · exact and255_lt _
  · rw [if_neg hstr] at hb
    rcases List.mem_singleton.1 hb with h
    omega

theorem prevFieldBytes_lt (big : Bool) (n : Nat) (h : big = false → n < 254) :
    ∀ b ∈ prevFieldBytes big n, b < 256 := by
  cases big with
  | false =>
    intro b hb
    rcases List.mem_singleton.1 hb with h1
    rw [h1]
    exact lt_of_lt_of_le (h rfl) (by norm_num)
  | true =>
    intro b hb
    rcases List.mem_cons.1 hb with h1 | h1
    · omega
    · exact natToLE_lt 4 n b h1

theorem contentBytes_lt {c : ZContent} (h : contentOk c) : ∀ b ∈ contentBytes c, b < 256 := by
  cases c with
  | str s =>
    intro b hb
    rcases List.mem_append.1 hb with h1 | h1
    · exact zipEncodeLength_lt 0 s.length (by norm_num) b h1
    · exact h.1 b h1
  | int v e =>
    intro b hb
    rcases List.mem_append.1 hb with h1 | h1
    · exact zipEncodeLength_lt e 0 (contentOk_int_lt h) b h1
    · exact zipSaveInteger_lt v e b h1

theorem entryBlock_lt (plen : Nat) (e : Bool × ZContent) (hsmall : e.1 = false → plen < 254)
    (hc : contentOk e.2) : ∀ b ∈ entryBlock plen e, b < 256 := by
  intro b hb
  rcases List.mem_append.1 hb with h1 | h1
  · exact prevFieldBytes_lt e.1 plen hsmall b h1
  · exact contentBytes_lt hc b h1

theorem entryBlock_head (pre : List Nat) (plen : Nat) (e : Bool × ZContent)
    (rest : List Nat) (hsmall : e.1 = false → plen < 254) :
    readByte (pre ++ (entryBlock plen e ++ rest)) pre.length ≠ 255 := by
  rcases e with ⟨big, c⟩
  cases big with
  | false =>
    show readByte (pre ++ (plen :: (contentBytes c ++ rest))) pre.length ≠ 255
    rw [readByte_at]
    have := hsmall rfl
    omega
  | true =>
    show readByte (pre ++ (254 :: (natToLE 4 plen ++ contentBytes c ++ rest))) pre.length ≠ 255
    rw [readByte_at]
    omega

theorem zipDecodePrevlensize_cover (pre : List Nat) (big : Bool) (plen : Nat)
    (rest : List Nat) (hsmall : big = false → plen < 254) :
    zipDecodePrevlensize (pre ++ (prevFieldBytes big plen ++ rest)) pre.length =
      prevFieldSize big := by
  cases big with
  | false =>
    show zipDecodePrevlensize (pre ++ plen :: rest) pre.length = 1
    unfold zipDecodePrevlensize
    rw [readByte_at]
    simp [hsmall rfl]
  | true =>
    show zipDecodePrevlensize (pre ++ 254 :: (natToLE 4 plen ++ rest)) pre.length = 5
    unfold zipDecodePrevlensize
    rw [readByte_at]
    simp

theorem zipRawEntryLength_cover (pre : List Nat) (plen : Nat) (e : Bool × ZContent)
    (rest : List Nat) (hsmall : e.1 = false → plen < 254) (hlt : plen < 2 ^ 32)
    (hc : contentOk e.2) :
    zipRawEntryLength (pre ++ (entryBlock plen e ++ rest)) pre.length =
      (entryBlock plen e).length := by
  have hassoc : pre ++ (entryBlock plen e ++ rest) =
      pre ++ (prevFieldBytes e.1 plen ++ (contentBytes e.2 ++ rest)) := by
    unfold entryBlock
    simp
  have hplen : pre.length + prevFieldSize e.1 = (pre ++ prevFieldBytes e.1 plen).length := by
    rw [List.length_append, prevFieldBytes_length]
  have hassoc2 : pre ++ (prevFieldBytes e.1 plen ++ (contentBytes e.2 ++ rest)) =
      (pre ++ prevFieldBytes e.1 plen) ++ (contentBytes e.2 ++ rest) := by
    simp
  unfold zipRawEntryLength
  simp only [hassoc, zipDecodePrevlensize_cover pre e.1 plen _ hsmall]
  rw [hplen, hassoc2, zipDecodeLength_cover _ e.2 rest hc, entryBlock_length plen e hc]

theorem zipEntry_cover (pre : List Nat) (plen : Nat) (e : Bool × ZContent)
    (rest : List Nat) (hsmall : e.1 = false → plen < 254) (hlt : plen < 2 ^ 32)
    (hc : contentOk e.2) :
    zipEntry (pre ++ (entryBlock plen e ++ rest)) pre.length =
      ⟨prevFieldSize e.1, plen, (contentHeadInfo e.2).2.1, (contentHeadInfo e.2).2.2,
        prevFieldSize e.1 + (contentHeadInfo e.2).2.1, (contentHeadInfo e.2).1,
        pre.length⟩ := by
  have hassoc : pre ++ (entryBlock plen e ++ rest) =
      pre ++ (prevFieldBytes e.1 plen ++ (contentBytes e.2 ++ rest)) := by
    unfold entryBlock
    simp
  have hplen : pre.length + prevFieldSize e.1 = (pre ++ prevFieldBytes e.1 plen).length := by
    rw [List.length_append, prevFieldBytes_length]
  have hassoc2 : pre ++ (prevFieldBytes e.1 plen ++ (contentBytes e.2 ++ rest)) =
      (pre ++ prevFieldBytes e.1 plen) ++ (contentBytes e.2 ++ rest) := by
    simp
  unfold zipEntry
  simp only [hassoc, zipDecodePrevlen_cover pre e.1 plen _ hsmall hlt]
  rw [hplen, hassoc2, zipDecodeLength_cover _ e.2 rest hc]

/-! ### Structure of `blocks`, `chainEnd`, `tailStartOf` -/

theorem chainEnd_cons (p : Nat) (e : Bool × ZContent) (es : List (Bool × ZContent)) :
    chainEnd p (e :: es) = chainEnd (entryBlock p e).length es := rfl

theorem blocks_cons (p : Nat) (e : Bool × ZContent) (es : List (Bool × ZContent)) :
    blocks p (e :: es) = entryBlock p e :: blocks (entryBlock p e).length es := rfl

theorem entriesOk_cons (p : Nat) (e : Bool × ZContent) (es : List (Bool × ZContent)) :
    entriesOk p (e :: es) ↔
      (e.1 = false → p < 254) ∧ p < 2 ^ 32 ∧ contentOk e.2 ∧
        entriesOk (entryBlock p e).length es := Iff.rfl

theorem blocks_append_one (p : Nat) (es : List (Bool × ZContent)) (e : Bool × ZContent) :
    blocks p (es ++ [e]) = blocks p es ++ [entryBlock (chainEnd p es) e] := by
  induction es generalizing p with
  | nil => rfl
  | cons e0 es ih =>
    show entryBlock p e0 :: blocks (entryBlock p e0).length (es ++ [e]) = _
    rw [ih]
    rfl

theorem chainEnd_append_one (p : Nat) (es : List (Bool × ZContent)) (e : Bool × ZContent) :
    chainEnd p (es ++ [e]) = (entryBlock (chainEnd p es) e).length := by
  induction es generalizing p with
  | nil => rfl
  | cons e0 es ih =>
    show chainEnd (entryBlock p e0).length (es ++ [e]) = _
    rw [ih]
    rfl

theorem entriesOk_append_one (p : Nat) (es : List (Bool × ZContent)) (e : Bool × ZContent) :
    entriesOk p (es ++ [e]) ↔
      entriesOk p es ∧ (e.1 = false → chainEnd p es < 254) ∧ chainEnd p es < 2 ^ 32 ∧
        contentOk e.2 := by
  induction es generalizing p with
  | nil =>
    show entriesOk p [e] ↔ _
    unfold entriesOk chainEnd
    simp [entriesOk]
  | cons e0 es ih =>
    show entriesOk p (e0 :: (es ++ [e])) ↔ _
    simp only [entriesOk_cons]
    rw [ih, chainEnd_cons]
    tauto

theorem bodyOf_append_one (es : List (Bool × ZContent)) (e : Bool × ZContent) :
    bodyOf (es ++ [e]) = bodyOf es ++ entryBlock (endPrevLen es) e := by
  unfold bodyOf endPrevLen
  rw [blocks_append_one]
  simp

theorem tailStartOf_append_one (es : List (Bool × ZContent)) (e : Bool × ZContent) :
    tailStartOf (es ++ [e]) = 10 + (bodyOf es).length := by
  unfold tailStartOf bodyOf
  rw [blocks_append_one, List.dropLast_concat, List.length_flatten]

/-! ### Shape of an assembled blob, header reads -/

theorem zlOf_shape (es : List (Bool × ZContent)) (cnt : Nat) :
    zlOf es cnt = hdrOf es cnt ++ (bodyOf es ++ [255]) := by
  unfold zlOf hdrOf
  simp

theorem hdrOf_length (es : List (Bool × ZContent)) (cnt : Nat) :
    (hdrOf es cnt).length = 10 := by
  unfold hdrOf
  simp [natToLE_length]

theorem getU32_zlOf_bytes (es : List (Bool × ZContent)) (cnt : Nat)
    (h : 11 + (bodyOf es).length < 2 ^ 32) :
    getU32 (zlOf es cnt) 0 = 11 + (bodyOf es).length := by
  unfold zlOf getU32
  have := readLE_natToLE 4 (11 + (bodyOf es).length)
    (natToLE 4 (tailStartOf es) ++ natToLE 2 cnt ++ bodyOf es ++ [255])
  simp only [List.append_assoc] at this ⊢
  rw [this, Nat.mod_eq_of_lt (by norm_num at h ⊢; omega)]

theorem tailStartOf_le (es : List (Bool × ZContent)) :
    tailStartOf es ≤ 10 + (bodyOf es).length := by
  unfold tailStartOf bodyOf
  rw [List.length_flatten]
  have : ((blocks 0 es).dropLast.map List.length).sum ≤
      ((blocks 0 es).map List.length).sum := by
    have hsub : (blocks 0 es).dropLast.map List.length <+:
        (blocks 0 es).map List.length := by
      exact (List.dropLast_prefix _).map _
    exact hsub.sublist.sum_le_sum (by intro x hx; positivity)
  omega

theorem readLE_skip (a rest : List Nat) {n : Nat} (h : a.length = n) (k : Nat) :
    readLE (a ++ rest) n k = readLE rest 0 k := by
  subst h
  simpa using readLE_append_right a rest 0 k

theorem getU32_zlOf_tail (es : List (Bool × ZContent)) (cnt : Nat)
    (h : 11 + (bodyOf es).length < 2 ^ 32) :
    getU32 (zlOf es cnt) 4 = tailStartOf es := by
  unfold zlOf getU32
  have hlen : (natToLE 4 (11 + (bodyOf es).length)).length = 4 := natToLE_length ..
  have hsplit : natToLE 4 (11 + (bodyOf es).length) ++ natToLE 4 (tailStartOf es) ++
      natToLE 2 cnt ++ bodyOf es ++ [255] =
      natToLE 4 (11 + (bodyOf es).length) ++ (natToLE 4 (tailStartOf es) ++
        (natToLE 2 cnt ++ bodyOf es ++ [255])) := by
    simp
  rw [hsplit, readLE_skip _ _ hlen]
  have := readLE_natToLE 4 (tailStartOf es) (natToLE 2 cnt ++ bodyOf es ++ [255])
  simp only [List.append_assoc] at this ⊢
  rw [this, Nat.mod_eq_of_lt]
  have := tailStartOf_le es
  omega

theorem getU16_zlOf (es : List (Bool × ZContent)) (cnt : Nat) (h : cnt < 65536) :
    getU16 (zlOf es cnt) 8 = cnt := by
  unfold zlOf getU16
  have h1 : (natToLE 4 (11 + (bodyOf es).length)).length = 4 := natToLE_length ..
  have h2 : (natToLE 4 (tailStartOf es)).length = 4 := natToLE_length ..
  have hsplit : natToLE 4 (11 + (bodyOf es).length) ++ natToLE 4 (tailStartOf es) ++
      natToLE 2 cnt ++ bodyOf es ++ [255] =
      (natToLE 4 (11 + (bodyOf es).length) ++ natToLE 4 (tailStartOf es)) ++
        (natToLE 2 cnt ++ (bodyOf es ++ [255])) := by
    simp
  rw [hsplit, readLE_skip _ _ (show (natToLE 4 (11 + (bodyOf es).length) ++
    natToLE 4 (tailStartOf es)).length = 8 by simp [h1, h2])]
  have := readLE_natToLE 2 cnt (bodyOf es ++ [255])
  simp only [List.append_assoc] at this ⊢
  rw [this, Nat.mod_eq_of_lt (by norm_num; omega)]

theorem zlOf_length (es : List (Bool × ZContent)) (cnt : Nat) :
    (zlOf es cnt).length = 11 + (bodyOf es).length := by
  rw [zlOf_shape]
  simp [hdrOf_length]
  omega

theorem entryBlock_pos (p : Nat) (e : Bool × ZContent) :
    1 ≤ (entryBlock p e).length := by
  unfold entryBlock
  rcases e with ⟨big, c⟩
  cases big <;> simp [prevFieldBytes, natToLE_length]

theorem blocks_length (p : Nat) (es : List (Bool × ZContent)) :
    (blocks p es).length = es.length := by
  induction es generalizing p with
  | nil => rfl
  | cons e es ih =>
    rw [blocks_cons]
    simp [ih]

theorem length_le_flatten (p : Nat) (es : List (Bool × ZContent)) :
    es.length ≤ ((blocks p es).flatten).length := by
  induction es generalizing p with
  | nil => simp
  | cons e es ih =>
    rw [blocks_cons, List.flatten_cons, List.length_append]
    have h1 := entryBlock_pos p e
    have h2 := ih (entryBlock p e).length
    simp only [List.length_cons]
    omega

/-! ### Start offsets -/

theorem startList_length (off p : Nat) (es : List (Bool × ZContent)) :
    (startList off p es).length = es.length := by
  induction es generalizing off p with
  | nil => rfl
  | cons e es ih =>
    show (off :: startList (off + (entryBlock p e).length) (entryBlock p e).length es).length = _
    simp [ih]

theorem startList_append_one (off p : Nat) (es : List (Bool × ZContent)) (e : Bool × ZContent) :
    startList off p (es ++ [e]) =
      startList off p es ++ [off + ((blocks p es).flatten).length] := by
  induction es generalizing off p with
  | nil => simp [startList, show blocks p [] = [] from rfl]
  | cons e0 es ih =>
    show off :: startList (off + (entryBlock p e0).length) (entryBlock p e0).length (es ++ [e]) = _
    rw [ih]
    show _ = off :: startList (off + (entryBlock p e0).length) (entryBlock p e0).length es ++ _
    rw [blocks_cons, List.flatten_cons]
    simp
    omega

/-! ### The forward walk over a well-formed block sequence -/

theorem lenWalk_blocks (es : List (Bool × ZContent)) :
    ∀ (plen : Nat) (pre rest : List Nat) (acc fuel : Nat), entriesOk plen es →
      es.length < fuel →
      lenWalk fuel (pre ++ ((blocks plen es).flatten ++ 255 :: rest)) pre.length acc =
        acc + es.length := by
  induction es with
  | nil =>
    intro plen pre rest acc fuel hok hfuel
    match fuel, hfuel with
    | fuel + 1, _ =>
      show (if readByte (pre ++ ([] ++ 255 :: rest)) pre.length ≠ 255 then _ else acc) = _
      rw [List.nil_append, readByte_at]
      simp
  | cons e es ih =>
    intro plen pre rest acc fuel hok hfuel
    rcases hok with ⟨hsmall, hlt, hc, hok'⟩
    match fuel, hfuel with
    | fuel + 1, hfuel =>
      have hshape : pre ++ ((blocks plen (e :: es)).flatten ++ 255 :: rest) =
          pre ++ (entryBlock plen e ++
            ((blocks (entryBlock plen e).length es).flatten ++ 255 :: rest)) := by
        rw [blocks_cons, List.flatten_cons]
        simp
      show lenWalk (fuel + 1) _ pre.length acc = _
      rw [hshape]
      unfold lenWalk
      rw [if_pos (by simpa using entryBlock_head pre plen e _ hsmall)]
      rw [zipRawEntryLength_cover pre plen e _ hsmall hlt hc]
      have hpre : pre.length + (entryBlock plen e).length =
          (pre ++ entryBlock plen e).length := by
        simp
      rw [hpre, show pre ++ (entryBlock plen e ++
          ((blocks (entryBlock plen e).length es).flatten ++ 255 :: rest)) =
        (pre ++ entryBlock plen e) ++
          ((blocks (entryBlock plen e).length es).flatten ++ 255 :: rest) by simp]
      rw [ih (entryBlock plen e).length (pre ++ entryBlock plen e) rest (acc + 1) fuel hok'
        (by simpa using hfuel)]
      simp
      omega

/-! ### The forward `ziplistIndex` loop over a well-formed block sequence -/

theorem indexPosLoop_blocks (es : List (Bool × ZContent)) :
    ∀ (plen : Nat) (pre rest : List Nat) (fuel : Nat) (idx : Int), entriesOk plen es →
      es.length < fuel → 0 ≤ idx →
      (idx < (es.length : Int) →
        indexPosLoop fuel (pre ++ ((blocks plen es).flatten ++ 255 :: rest)) pre.length idx =
          ((startList pre.length plen es).getD idx.toNat 0, -1) ∧
        readByte (pre ++ ((blocks plen es).flatten ++ 255 :: rest))
          ((startList pre.length plen es).getD idx.toNat 0) ≠ 255) ∧
      ((es.length : Int) ≤ idx →
        indexPosLoop fuel (pre ++ ((blocks plen es).flatten ++ 255 :: rest)) pre.length idx =
          (pre.length + ((blocks plen es).flatten).length, idx - es.length)) := by
  induction es with
  | nil =>
    intro plen pre rest fuel idx hok hfuel hidx
    match fuel, hfuel with
    | fuel + 1, _ =>
      constructor
      · intro habs
        simp at habs
        omega
      · intro _
        show (if readByte (pre ++ ([] ++ 255 :: rest)) pre.length ≠ 255 then _ else _) = _
        rw [List.nil_append, readByte_at]
        simp [show blocks plen [] = [] from rfl]
  | cons e es ih =>
    intro plen pre rest fuel idx hok hfuel hidx
    rcases hok with ⟨hsmall, hlt, hc, hok'⟩
    match fuel, hfuel with
    | fuel + 1, hfuel =>
      have hshape : pre ++ ((blocks plen (e :: es)).flatten ++ 255 :: rest) =
          pre ++ (entryBlock plen e ++
            ((blocks (entryBlock plen e).length es).flatten ++ 255 :: rest)) := by
        rw [blocks_cons, List.flatten_cons]
        simp
      have hhead := entryBlock_head pre plen e
        ((blocks (entryBlock plen e).length es).flatten ++ 255 :: rest) hsmall
      have hassoc : pre ++ (entryBlock plen e ++
          ((blocks (entryBlock plen e).length es).flatten ++ 255 :: rest)) =
          (pre ++ entryBlock plen e) ++
            ((blocks (entryBlock plen e).length es).flatten ++ 255 :: rest) := by
        simp
      have hstart : startList pre.length plen (e :: es) =
          pre.length :: startList (pre ++ entryBlock plen e).length
            (entryBlock plen e).length es := by
        show pre.length :: startList (pre.length + (entryBlock plen e).length) _ es = _
        simp
      constructor
      · intro hin
        by_cases hz : idx = 0
        · subst hz
          rw [hshape, hstart]
          constructor
          · unfold indexPosLoop
            rw [if_pos (by simpa using hhead), if_pos rfl]
            simp
          · simp only [Int.toNat_zero, List.getD_cons_zero]
            simpa using hhead
        · have h1 : 1 ≤ idx := by omega
          have hrec := ih (entryBlock plen e).length (pre ++ entryBlock plen e) rest fuel
            (idx - 1) hok' (by simpa using hfuel) (by omega)
          have hin2 : idx - 1 < (es.length : Int) := by
            simp only [List.length_cons] at hin
            push_cast at hin ⊢
            omega
          have htn : idx.toNat = (idx - 1).toNat + 1 := by omega
          rw [hshape, hstart, htn]
          constructor
          · unfold indexPosLoop
            rw [if_pos (by simpa using hhead), if_neg hz,
              zipRawEntryLength_cover pre plen e _ hsmall hlt hc, hassoc,
              show pre.length + (entryBlock plen e).length =
                (pre ++ entryBlock plen e).length by simp]
            rw [(hrec.1 hin2).1]
            simp
          · rw [List.getD_cons_succ]
            have := (hrec.1 hin2).2
            rw [hassoc]
            exact this
      · intro hge
        have hz : ¬(idx = 0) := by
          simp only [List.length_cons] at hge
          push_cast at hge
          omega
        have hrec := ih (entryBlock plen e).length (pre ++ entryBlock plen e) rest fuel
          (idx - 1) hok' (by simpa using hfuel) (by omega)
        have hge2 : (es.length : Int) ≤ idx - 1 := by
          simp only [List.length_cons] at hge
          push_cast at hge ⊢
          omega
        rw [hshape]
        unfold indexPosLoop
        rw [if_pos (by simpa using hhead), if_neg hz,
          zipRawEntryLength_cover pre plen e _ hsmall hlt hc, hassoc,
          show pre.length + (entryBlock plen e).length =
            (pre ++ entryBlock plen e).length by simp]
        rw [hrec.2 hge2]
        rw [blocks_cons, List.flatten_cons]
        simp only [Prod.mk.injEq]
        constructor
        · simp
          omega
        · simp only [List.length_cons]
          push_cast
          omega

/-! ### The backward `ziplistIndex` loop -/

theorem getD_append_len (l : List Nat) (x d : Nat) : (l ++ [x]).getD l.length d = x := by
  rw [List.getD_append_right l [x] d l.length (le_refl _)]
  simp

theorem flatten_append_one (bs : List (List Nat)) (b : List Nat) :
    (bs ++ [b]).flatten = bs.flatten ++ b := by
  simp

theorem indexNegLoop_blocks (es₀ : List (Bool × ZContent)) :
    ∀ (e : Bool × ZContent) (pre rest : List Nat) (fuel : Nat) (idx : Int),
      entriesOk 0 (es₀ ++ [e]) → es₀.length < fuel → 0 ≤ idx →
      (idx < ((es₀ ++ [e]).length : Int) →
        (indexNegLoop fuel (pre ++ ((blocks 0 (es₀ ++ [e])).flatten ++ rest))
            (pre.length + ((blocks 0 es₀).flatten).length) (chainEnd 0 es₀) idx).1 =
          (startList pre.length 0 (es₀ ++ [e])).getD (es₀.length - idx.toNat) 0 ∧
        (indexNegLoop fuel (pre ++ ((blocks 0 (es₀ ++ [e])).flatten ++ rest))
            (pre.length + ((blocks 0 es₀).flatten).length) (chainEnd 0 es₀) idx).2 ≤ 0 ∧
        readByte (pre ++ ((blocks 0 (es₀ ++ [e])).flatten ++ rest))
          ((startList pre.length 0 (es₀ ++ [e])).getD (es₀.length - idx.toNat) 0) ≠ 255) ∧
      (((es₀ ++ [e]).length : Int) ≤ idx →
        indexNegLoop fuel (pre ++ ((blocks 0 (es₀ ++ [e])).flatten ++ rest))
            (pre.length + ((blocks 0 es₀).flatten).length) (chainEnd 0 es₀) idx =
          (pre.length, idx - es₀.length)) := by
  induction es₀ using List.reverseRecOn with
  | nil =>
    intro e pre rest fuel idx hok hfuel hidx
    match fuel, hfuel with
    | fuel + 1, _ =>
      have hflat : ((blocks 0 ([] : List (Bool × ZContent))).flatten).length = 0 := rfl
      have hloop : indexNegLoop (fuel + 1) (pre ++ ((blocks 0 ([] ++ [e])).flatten ++ rest))
          (pre.length + ((blocks 0 ([] : List (Bool × ZContent))).flatten).length)
          (chainEnd 0 ([] : List (Bool × ZContent))) idx =
          (pre.length + ((blocks 0 ([] : List (Bool × ZContent))).flatten).length, idx) := by
        show (if (0 : Nat) > 0 then _ else _) = _
        simp
      constructor
      · intro hin
        rw [hloop]
        have hidx0 : idx = 0 := by
          simp at hin
          omega
        subst hidx0
        have hs : startList pre.length 0 ([] ++ [e]) = [pre.length] := rfl
        refine ⟨by rw [hs]; simp [hflat], by norm_num, ?_⟩
        rw [hs]
        simp only [List.nil_append, Int.toNat_zero, Nat.zero_sub, List.getD_cons_zero,
          List.length_nil]
        rcases hok with ⟨hsmall, _, _, _⟩
        have hdb := entryBlock_head pre 0 e rest hsmall
        have hb : (blocks 0 [e]).flatten = entryBlock 0 e ++ [] := by
          show (entryBlock 0 e :: blocks (entryBlock 0 e).length []).flatten = _
          simp [show blocks (entryBlock 0 e).length [] = [] from rfl]
        have hzl0 : pre ++ ((blocks 0 [e]).flatten ++ rest) =
            pre ++ (entryBlock 0 e ++ rest) := by
          rw [hb]
          simp
        rw [hzl0]
        exact hdb
      · intro hge
        rw [hloop]
        simp [hflat]
  | append_singleton es₁ eL ih =>
    intro e pre rest fuel idx hok hfuel hidx
    match fuel, hfuel with
    | fuel + 1, hfuel =>
      -- unpack well-formedness
      have hok1 : entriesOk 0 (es₁ ++ [eL]) ∧
          (e.1 = false → chainEnd 0 (es₁ ++ [eL]) < 254) ∧
          chainEnd 0 (es₁ ++ [eL]) < 2 ^ 32 ∧ contentOk e.2 :=
        (entriesOk_append_one 0 (es₁ ++ [eL]) e).1 hok
      have hok2 : entriesOk 0 es₁ ∧ (eL.1 = false → chainEnd 0 es₁ < 254) ∧
          chainEnd 0 es₁ < 2 ^ 32 ∧ contentOk eL.2 :=
        (entriesOk_append_one 0 es₁ eL).1 hok1.1
      have hchain : chainEnd 0 (es₁ ++ [eL]) =
          (entryBlock (chainEnd 0 es₁) eL).length := chainEnd_append_one 0 es₁ eL
      have hBLpos : 1 ≤ (entryBlock (chainEnd 0 es₁) eL).length := entryBlock_pos _ _
      -- shapes
      have hflat2 : (blocks 0 (es₁ ++ [eL])).flatten =
          (blocks 0 es₁).flatten ++ entryBlock (chainEnd 0 es₁) eL := by
        rw [blocks_append_one, flatten_append_one]
      have hflat3 : (blocks 0 ((es₁ ++ [eL]) ++ [e])).flatten =
          (blocks 0 (es₁ ++ [eL])).flatten ++ entryBlock (chainEnd 0 (es₁ ++ [eL])) e := by
        rw [blocks_append_one, flatten_append_one]
      -- the zl, rewritten so that the IH applies
      have hzl : pre ++ ((blocks 0 ((es₁ ++ [eL]) ++ [e])).flatten ++ rest) =
          pre ++ ((blocks 0 (es₁ ++ [eL])).flatten ++
            (entryBlock (chainEnd 0 (es₁ ++ [eL])) e ++ rest)) := by
        rw [hflat3]
        simp
      -- the tail start of the whole list
      have hptail : pre.length + ((blocks 0 (es₁ ++ [eL])).flatten).length =
          (pre.length + ((blocks 0 es₁).flatten).length) +
            (entryBlock (chainEnd 0 es₁) eL).length := by
        rw [hflat2]
        simp
        omega
      -- the head byte of the final entry is not the terminator
      have hheadE : readByte (pre ++ ((blocks 0 ((es₁ ++ [eL]) ++ [e])).flatten ++ rest))
          (pre.length + ((blocks 0 (es₁ ++ [eL])).flatten).length) ≠ 255 := by
        have h := entryBlock_head (pre ++ (blocks 0 (es₁ ++ [eL])).flatten)
          (chainEnd 0 (es₁ ++ [eL])) e rest hok1.2.1
        rw [hzl]
        rw [show pre ++ ((blocks 0 (es₁ ++ [eL])).flatten ++
            (entryBlock (chainEnd 0 (es₁ ++ [eL])) e ++ rest)) =
          (pre ++ (blocks 0 (es₁ ++ [eL])).flatten) ++
            (entryBlock (chainEnd 0 (es₁ ++ [eL])) e ++ rest) by simp]
        rw [show pre.length + ((blocks 0 (es₁ ++ [eL])).flatten).length =
          (pre ++ (blocks 0 (es₁ ++ [eL])).flatten).length by simp]
        exact h
      -- the start-offset list of the whole list
      have hstart3 : startList pre.length 0 ((es₁ ++ [eL]) ++ [e]) =
          startList pre.length 0 (es₁ ++ [eL]) ++
            [pre.length + ((blocks 0 (es₁ ++ [eL])).flatten).length] :=
        startList_append_one ..
      have hslen : (startList pre.length 0 (es₁ ++ [eL])).length = (es₁ ++ [eL]).length :=
        startList_length ..
      by_cases hz : idx = 0
      · -- found: the final entry itself
        subst hz
        have hloop : indexNegLoop (fuel + 1)
            (pre ++ ((blocks 0 ((es₁ ++ [eL]) ++ [e])).flatten ++ rest))
            (pre.length + ((blocks 0 (es₁ ++ [eL])).flatten).length)
            (chainEnd 0 (es₁ ++ [eL])) 0 =
            (pre.length + ((blocks 0 (es₁ ++ [eL])).flatten).length, -1) := by
          unfold indexNegLoop
          rw [if_pos (show chainEnd 0 (es₁ ++ [eL]) > 0 by omega), if_pos rfl]
          norm_num
        constructor
        · intro _
          rw [hloop]
          have hidxv : (es₁ ++ [eL]).length - (0 : Int).toNat = (es₁ ++ [eL]).length := by
            simp
          rw [hidxv, hstart3, ← hslen, getD_append_len]
          exact ⟨rfl, by norm_num, hheadE⟩
        · intro hge
          exfalso
          simp at hge
          omega
      · -- step backwards into es₁ ++ [eL]
        have h1 : 1 ≤ idx := by omega
        have hpd : zipDecodePrevlen
            (pre ++ ((blocks 0 ((es₁ ++ [eL]) ++ [e])).flatten ++ rest))
            (pre.length + ((blocks 0 es₁).flatten).length) =
            (prevFieldSize eL.1, chainEnd 0 es₁) := by
          have hshape : pre ++ ((blocks 0 ((es₁ ++ [eL]) ++ [e])).flatten ++ rest) =
              (pre ++ (blocks 0 es₁).flatten) ++
                (prevFieldBytes eL.1 (chainEnd 0 es₁) ++ (contentBytes eL.2 ++
                  (entryBlock (chainEnd 0 (es₁ ++ [eL])) e ++ rest))) := by
            rw [hflat3, hflat2]
            unfold entryBlock
            simp
          rw [hshape, show pre.length + ((blocks 0 es₁).flatten).length =
            (pre ++ (blocks 0 es₁).flatten).length by simp]
          exact zipDecodePrevlen_cover _ eL.1 _ _ hok2.2.1 hok2.2.2.1
        have hloop : indexNegLoop (fuel + 1)
            (pre ++ ((blocks 0 ((es₁ ++ [eL]) ++ [e])).flatten ++ rest))
            (pre.length + ((blocks 0 (es₁ ++ [eL])).flatten).length)
            (chainEnd 0 (es₁ ++ [eL])) idx =
            indexNegLoop fuel (pre ++ ((blocks 0 ((es₁ ++ [eL]) ++ [e])).flatten ++ rest))
              (pre.length + ((blocks 0 es₁).flatten).length) (chainEnd 0 es₁) (idx - 1) := by
          conv_lhs => unfold indexNegLoop
          rw [if_pos (show chainEnd 0 (es₁ ++ [eL]) > 0 by omega), if_neg hz]
          have hsub : pre.length + ((blocks 0 (es₁ ++ [eL])).flatten).length -
              chainEnd 0 (es₁ ++ [eL]) =
              pre.length + ((blocks 0 es₁).flatten).length := by
            rw [hchain, hptail]
            omega
          simp only [hsub, hpd]
        have hrec := ih eL pre (entryBlock (chainEnd 0 (es₁ ++ [eL])) e ++ rest) fuel
          (idx - 1) hok1.1 (by simpa using hfuel) (by omega)
        rw [← hzl] at hrec
        constructor
        · intro hin
          have hin2 : idx - 1 < ((es₁ ++ [eL]).length : Int) := by
            simp only [List.length_append, List.length_cons, List.length_nil] at hin ⊢
            push_cast at hin ⊢
            omega
          have hIH := hrec.1 hin2
          rw [hloop]
          have hidxeq : (es₁ ++ [eL]).length - idx.toNat = es₁.length - (idx - 1).toNat := by
            simp only [List.length_append, List.length_cons, List.length_nil]
            omega
          have hlt' : (es₁ ++ [eL]).length - idx.toNat <
              (startList pre.length 0 (es₁ ++ [eL])).length := by
            rw [hslen, hidxeq]
            simp only [List.length_append, List.length_cons, List.length_nil]
            omega
          have hgetD : (startList pre.length 0 ((es₁ ++ [eL]) ++ [e])).getD
              ((es₁ ++ [eL]).length - idx.toNat) 0 =
              (startList pre.length 0 (es₁ ++ [eL])).getD
                (es₁.length - (idx - 1).toNat) 0 := by
            rw [hstart3, List.getD_append _ _ _ _ hlt', hidxeq]
          rw [hgetD]
          exact ⟨hIH.1, hIH.2.1, hIH.2.2⟩
        · intro hge
          have hge2 : ((es₁ ++ [eL]).length : Int) ≤ idx - 1 := by
            simp only [List.length_append, List.length_cons, List.length_nil] at hge ⊢
            push_cast at hge ⊢
            omega
          rw [hloop, hrec.2 hge2]
          simp only [List.length_append, List.length_cons, List.length_nil, Prod.mk.injEq]
          constructor
          · trivial
          · push_cast
            omega

/-! ### Full specification of `ziplistIndex` on well-formed blobs -/

theorem bodyOf_eq_flatten (es : List (Bool × ZContent)) :
    bodyOf es = (blocks 0 es).flatten := rfl

theorem reps_fuel (es : List (Bool × ZContent)) (cnt : Nat) :
    es.length < (zlOf es cnt).length + 1 := by
  have h1 := length_le_flatten 0 es
  have h2 := zlOf_length es cnt
  rw [← bodyOf_eq_flatten] at h1
  omega

theorem zlOf_walk_shape (es : List (Bool × ZContent)) (cnt : Nat) :
    zlOf es cnt = hdrOf es cnt ++ ((blocks 0 es).flatten ++ 255 :: []) := by
  rw [zlOf_shape, bodyOf_eq_flatten]

theorem ziplistIndex_spec (es : List (Bool × ZContent)) (cnt : Nat) (i : Int)
    (hcnt : cnt < 65536) (hok : entriesOk 0 es)
    (hbound : 11 + (bodyOf es).length < 2 ^ 32) :
    ziplistIndex (zlOf es cnt) i = idxSpec es i := by
  have hfuel := reps_fuel es cnt
  have hshape := zlOf_walk_shape es cnt
  have hpre : (hdrOf es cnt).length = 10 := hdrOf_length es cnt
  simp only [ziplistIndex]
  rcases Int.lt_or_le i 0 with hneg | hpos
  · -- negative index: walk from the tail
    rw [if_pos hneg]
    have htail : getU32 (zlOf es cnt) 4 = tailStartOf es := getU32_zlOf_tail es cnt hbound
    rcases es.eq_nil_or_concat with hnil | ⟨es₀, e, hcat⟩
    · subst hnil
      have ht0 : tailStartOf ([] : List (Bool × ZContent)) = 10 := rfl
      have hterm : readByte (zlOf ([] : List (Bool × ZContent)) cnt) 10 = 255 := by
        rw [hshape, ← hpre]
        have h0 : (blocks 0 ([] : List (Bool × ZContent))).flatten ++ 255 :: [] =
            255 :: [] := rfl
        rw [h0, readByte_at]
      rw [htail, ht0]
      rw [if_neg (show ¬(readByte (zlOf ([] : List (Bool × ZContent)) cnt) 10 ≠ 255)
        from by simp [hterm])]
      unfold idxSpec
      split
      · next h =>
        split
        · next h1 =>
          exfalso
          rcases h1 with ⟨h1a, _⟩
          omega
        · split
          · next h2 =>
            exfalso
            rcases h2 with ⟨h2a, _⟩
            simp at h2a
            omega
          · rfl
      · next h =>
        exfalso
        exact h (Or.inl hterm)
    · rw [List.concat_eq_append] at hcat
      subst hcat
      have hok1 := (entriesOk_append_one 0 es₀ e).1 hok
      have hflat1 : (blocks 0 (es₀ ++ [e])).flatten =
          (blocks 0 es₀).flatten ++ entryBlock (chainEnd 0 es₀) e := by
        rw [blocks_append_one, flatten_append_one]
      have htail2 : tailStartOf (es₀ ++ [e]) = 10 + ((blocks 0 es₀).flatten).length := by
        rw [tailStartOf_append_one, bodyOf_eq_flatten]
      have hsplitzl : zlOf (es₀ ++ [e]) cnt =
          (hdrOf (es₀ ++ [e]) cnt ++ (blocks 0 es₀).flatten) ++
            (entryBlock (chainEnd 0 es₀) e ++ 255 :: []) := by
        rw [hshape, hflat1]
        simp
      have hp2 : tailStartOf (es₀ ++ [e]) =
          (hdrOf (es₀ ++ [e]) cnt ++ (blocks 0 es₀).flatten).length := by
        rw [htail2]
        simp [hpre]
      have hheadE : readByte (zlOf (es₀ ++ [e]) cnt) (tailStartOf (es₀ ++ [e])) ≠ 255 := by
        rw [hsplitzl, hp2]
        exact entryBlock_head _ _ e _ hok1.2.1
      have hpd : (zipDecodePrevlen (zlOf (es₀ ++ [e]) cnt) (tailStartOf (es₀ ++ [e]))).2 =
          chainEnd 0 es₀ := by
        have hsplitzl2 : zlOf (es₀ ++ [e]) cnt =
            (hdrOf (es₀ ++ [e]) cnt ++ (blocks 0 es₀).flatten) ++
              (prevFieldBytes e.1 (chainEnd 0 es₀) ++ (contentBytes e.2 ++ 255 :: [])) := by
          rw [hsplitzl]
          unfold entryBlock
          simp
        rw [hsplitzl2, hp2,
          zipDecodePrevlen_cover _ e.1 _ _ hok1.2.1 hok1.2.2.1]
      rw [htail, if_pos hheadE, hpd]
      have hne := indexNegLoop_blocks es₀ e (hdrOf (es₀ ++ [e]) cnt) (255 :: [])
        ((zlOf (es₀ ++ [e]) cnt).length + 1) (-i - 1) hok
        (by
          have hf := reps_fuel (es₀ ++ [e]) cnt
          simp only [List.length_append, List.length_cons, List.length_nil] at hf ⊢
          omega)
        (by omega)
      rw [← hshape] at hne
      rw [hpre] at hne
      rw [← htail2] at hne
      rcases Int.lt_or_le (-i - 1) (((es₀ ++ [e]).length : Nat) : Int) with hin | hout
      · have hc := hne.1 hin
        rw [hc.1]
        split
        · next h =>
          exfalso
          rcases h with h | h
          · exact hc.2.2 h
          · have := hc.2.1
            omega
        · next h =>
          unfold idxSpec
          split
          · next h2 =>
            exfalso
            rcases h2 with ⟨h2a, _⟩
            omega
          · next h2 =>
            have hidxeq : (es₀ ++ [e]).length - (-i).toNat = es₀.length - (-i - 1).toNat := by
              simp only [List.length_append, List.length_cons, List.length_nil]
              omega
            rw [hidxeq]
            split
            · rfl
            · next h3 =>
              exfalso
              apply h3
              constructor
              · simp only [List.length_append, List.length_cons, List.length_nil] at hin ⊢
                push_cast at hin ⊢
                omega
              · omega
      · have hc := hne.2 hout
        rw [hc]
        split
        · next h =>
          unfold idxSpec
          split
          · next h2 =>
            exfalso
            rcases h2 with ⟨h2a, _⟩
            omega
          · next h2 =>
            split
            · next h3 =>
              exfalso
              rcases h3 with ⟨h3a, _⟩
              simp only [List.length_append, List.length_cons, List.length_nil] at h3a hout
              push_cast at h3a hout
              omega
            · rfl
        · next h =>
          exfalso
          apply h
          right
          show (0 : Int) < -i - 1 - es₀.length
          simp only [List.length_append, List.length_cons, List.length_nil] at hout
          push_cast at hout ⊢
          omega
  · -- non-negative index: walk from the head
    rw [if_neg (show ¬(i < 0) by omega)]
    have hpos' := indexPosLoop_blocks es 0 (hdrOf es cnt) [] ((zlOf es cnt).length + 1) i
      hok hfuel hpos
    rw [← hshape] at hpos'
    rw [hpre] at hpos'
    rw [show headerSize = 10 from rfl]
    rcases Int.lt_or_le i ((es.length : Nat) : Int) with hin | hout
    · have hc := hpos'.1 hin
      rw [hc.1]
      split
      · next h =>
        exfalso
        rcases h with h | h
        · exact hc.2 h
        · omega
      · next h =>
        unfold idxSpec
        split
        · rfl
        · next h2 =>
          exfalso
          apply h2
          constructor <;> omega
    · have hc := hpos'.2 hout
      rw [hc]
      have hterm : readByte (zlOf es cnt) (10 + ((blocks 0 es).flatten).length) = 255 := by
        rw [hshape]
        rw [show hdrOf es cnt ++ ((blocks 0 es).flatten ++ 255 :: []) =
          (hdrOf es cnt ++ (blocks 0 es).flatten) ++ 255 :: [] by simp]
        rw [show 10 + ((blocks 0 es).flatten).length =
          (hdrOf es cnt ++ (blocks 0 es).flatten).length by simp [hpre]]
        exact readByte_at _ 255 []
      split
      · next h =>
        unfold idxSpec
        split
        · next h2 =>
          exfalso
          rcases h2 with ⟨_, h2b⟩
          omega
        · next h2 =>
          split
          · next h3 =>
            exfalso
            rcases h3 with ⟨_, h3b⟩
            omega
          · rfl
      · next h =>
        exfalso
        exact h (Or.inl hterm)

/-! ### Claim C8: index range of `ziplistIndex` -/

/-- C8: on a well-formed ziplist blob representing `n` entries, `ziplistIndex i`
returns an entry offset exactly when `-n ≤ i ≤ n - 1`; a non-negative `i`
selects the `i`-th entry start counting from the head, a negative `i` the
`(n+i)`-th (so `-1` is the last entry); every index outside that range, and
every index on an empty list, yields NULL (`none`).  (`ziplistIndex` reads the
blob and returns an offset; it never writes, so the list is unchanged.) -/
theorem ziplistIndex_inRange_iff (zl : List Nat) (es : List (Bool × ZContent)) (i : Int)
    (hrep : Reps zl es) :
    ((ziplistIndex zl i).isSome ↔
      -(es.length : Int) ≤ i ∧ i ≤ (es.length : Int) - 1) ∧
    (∀ k : Nat, k < es.length →
      ziplistIndex zl (k : Int) = some ((startList 10 0 es).getD k 0)) ∧
    (∀ k : Nat, 1 ≤ k → k ≤ es.length →
      ziplistIndex zl (-(k : Int)) =
        some ((startList 10 0 es).getD (es.length - k) 0)) ∧
    (es = [] → ziplistIndex zl i = none) := by
  obtain ⟨cnt, hcnt, hzl, hok, hbound⟩ := hrep
  subst hzl
  have hmain : ∀ j : Int, ziplistIndex (zlOf es cnt) j = idxSpec es j :=
    fun j => ziplistIndex_spec es cnt j hcnt hok hbound
  refine ⟨?_, ?_, ?_, ?_⟩
  · rw [hmain i]
    unfold idxSpec
    split
    · next h =>
      simp only [Option.isSome_some, true_iff]
      constructor <;> omega
    · next h =>
      split
      · next h2 =>
        simp only [Option.isSome_some, true_iff]
        constructor <;> omega
      · next h2 =>
        refine iff_of_false (by simp) ?_
        intro hc
        rcases Int.lt_or_le i 0 with hlt | hge
        · exact h2 ⟨hc.1, hlt⟩
        · exact h ⟨hge, hc.2⟩
  · intro k hk
    rw [hmain k]
    unfold idxSpec
    rw [if_pos (by constructor <;> omega)]
    simp
  · intro k hk1 hk2
    rw [hmain (-(k : Int))]
    unfold idxSpec
    rw [if_neg (show ¬(0 ≤ -(k : Int) ∧ -(k : Int) ≤ (es.length : Int) - 1) by omega)]
    rw [if_pos (show -(es.length : Int) ≤ -(k : Int) ∧ -(k : Int) < 0 by omega)]
    have ht : (-(-(k : Int))).toNat = k := by omega
    rw [ht]
  · intro hnil
    subst hnil
    rw [hmain i]
    unfold idxSpec
    rw [if_neg (by simp; omega), if_neg (by simp)]

theorem ziplistIndex_inRange_iff_witness :
    ((ziplistIndex (zlOf wEs 2) 0).isSome ↔
      -(wEs.length : Int) ≤ 0 ∧ (0 : Int) ≤ (wEs.length : Int) - 1) ∧
    (∀ k : Nat, k < wEs.length →
      ziplistIndex (zlOf wEs 2) (k : Int) = some ((startList 10 0 wEs).getD k 0)) ∧
    (∀ k : Nat, 1 ≤ k → k ≤ wEs.length →
      ziplistIndex (zlOf wEs 2) (-(k : Int)) =
        some ((startList 10 0 wEs).getD (wEs.length - k) 0)) ∧
    (wEs = [] → ziplistIndex (zlOf wEs 2) 0 = none) :=
  ziplistIndex_inRange_iff (zlOf wEs 2) wEs 0
    ⟨2, by decide, rfl, by decide, by decide⟩

/-! ### Claim C7: count-field saturation and the length walk fallback -/

/-- C7: the count field saturates at `0xFFFF`: `ZIPLIST_INCR_LENGTH` leaves the
blob unchanged once the stored count is `0xFFFF`; `ziplistLen` answers directly
from the field (and leaves the blob unchanged) when the stored count is below
`0xFFFF`, and otherwise walks the entries, returning the true entry count on
every well-formed blob at or beyond the saturation boundary. -/
theorem ziplistLen_saturation (zl : List Nat) (es : List (Bool × ZContent)) (incr : Int)
    (hrep : Reps zl es) :
    (getU16 zl 8 = 65535 → ziplistIncrLength zl incr = zl) ∧
    (getU16 zl 8 < 65535 →
      (ziplistLen zl).1 = getU16 zl 8 ∧ (ziplistLen zl).2 = zl) ∧
    (getU16 zl 8 = 65535 → (ziplistLen zl).1 = es.length) := by
  obtain ⟨cnt, hcnt, hzl, hok, hbound⟩ := hrep
  subst hzl
  refine ⟨?_, ?_, ?_⟩
  · intro hsat
    unfold ziplistIncrLength
    rw [if_neg (by omega)]
  · intro hlt
    unfold ziplistLen
    rw [if_pos hlt]
    exact ⟨rfl, rfl⟩
  · intro hsat
    unfold ziplistLen
    rw [if_neg (by omega)]
    have hpre : (hdrOf es cnt).length = 10 := hdrOf_length es cnt
    have hw := lenWalk_blocks es 0 (hdrOf es cnt) [] 0 ((zlOf es cnt).length + 1)
      hok (reps_fuel es cnt)
    rw [← zlOf_walk_shape] at hw
    rw [hpre] at hw
    simp only [show headerSize = 10 from rfl, hw, Nat.zero_add]

theorem ziplistLen_saturation_witness :
    (getU16 (zlOf wEs 65535) 8 = 65535 →
      ziplistIncrLength (zlOf wEs 65535) 1 = zlOf wEs 65535) ∧
    (getU16 (zlOf wEs 65535) 8 < 65535 →
      (ziplistLen (zlOf wEs 65535)).1 = getU16 (zlOf wEs 65535) 8 ∧
      (ziplistLen (zlOf wEs 65535)).2 = zlOf wEs 65535) ∧
    (getU16 (zlOf wEs 65535) 8 = 65535 → (ziplistLen (zlOf wEs 65535)).1 = wEs.length) :=
  ziplistLen_saturation (zlOf wEs 65535) wEs 1
    ⟨65535, by decide, rfl, by decide, by decide⟩

/-! ### Helper lemmas for the push-at-tail / delete-tail round trip -/

theorem endPrevLen_le (es : List (Bool × ZContent)) :
    endPrevLen es ≤ (bodyOf es).length := by
  rcases es.eq_nil_or_concat with hnil | ⟨es₀, e, hcat⟩
  · subst hnil
    simp [endPrevLen, chainEnd, bodyOf, blocks]
  · rw [List.concat_eq_append] at hcat
    subst hcat
    rw [bodyOf_append_one]
    unfold endPrevLen
    rw [chainEnd_append_one]
    simp [endPrevLen]

theorem tailStart_add_endPrev (es : List (Bool × ZContent)) :
    tailStartOf es + endPrevLen es = 10 + (bodyOf es).length := by
  rcases es.eq_nil_or_concat with hnil | ⟨es₀, e, hcat⟩
  · subst hnil
    simp [tailStartOf, endPrevLen, chainEnd, bodyOf, blocks]
  · rw [List.concat_eq_append] at hcat
    subst hcat
    rw [tailStartOf_append_one, bodyOf_append_one]
    unfold endPrevLen
    rw [chainEnd_append_one]
    simp [endPrevLen]
    omega

theorem prevFieldBytes_decide (n : Nat) :
    prevFieldBytes (decide (254 ≤ n)) n = zipPrevEncodeLength n := by
  unfold zipPrevEncodeLength
  by_cases h : n < 254
  · rw [if_pos h, show decide (254 ≤ n) = false by simpa using h]
    rfl
  · rw [if_neg h, show decide (254 ≤ n) = true by simpa using not_lt.1 h]
    rfl

theorem prevFieldSize_decide (n : Nat) :
    prevFieldSize (decide (254 ≤ n)) = zipPrevEncodeLengthSize n := by
  unfold zipPrevEncodeLengthSize
  by_cases h : n < 254
  · rw [if_pos h, show decide (254 ≤ n) = false by simpa using h]
    rfl
  · rw [if_neg h, show decide (254 ≤ n) = true by simpa using not_lt.1 h]
    rfl

theorem zipTryEncoding_contentOk {X : List Nat} {v : Int} {e : Nat}
    (h : zipTryEncoding X = some (v, e)) : contentOk (.int v e) := by
  unfold zipTryEncoding at h
  split at h
  · exact absurd h (by simp)
  · revert h
    cases hs : string2ll X with
    | none => intro h; exact absurd h (by simp)
    | some value =>
      intro h
      have hrange : -(2 ^ 63) ≤ value ∧ value ≤ 2 ^ 63 - 1 := by
        unfold string2ll at hs
        dsimp only at hs
        split at hs
        all_goals
          split at hs
          · exact absurd hs (by simp)
          · split at hs
            · split at hs
              · next hr =>
                simp only [Option.some.injEq] at hs
                subst hs
                exact hr
              · exact absurd hs (by simp)
            · exact absurd hs (by simp)
      simp only [Option.some.injEq, Prod.mk.injEq] at h
      obtain ⟨hv, he⟩ := h
      subst hv
      unfold contentOk
      split at he
      · next h1 =>
        refine Or.inr (Or.inr (Or.inr (Or.inr (Or.inr ⟨by omega, by omega, ?_⟩))))
        subst he
        push_cast
        omega
      · split at he
        · next h2 => subst he; exact Or.inl ⟨rfl, h2.1, h2.2⟩
        · split at he
          · next h3 => subst he; exact Or.inr (Or.inl ⟨rfl, h3.1, h3.2⟩)
          · split at he
            · next h4 => subst he; exact Or.inr (Or.inr (Or.inl ⟨rfl, h4.1, h4.2⟩))
            · split at he
              · next h5 =>
                subst he
                exact Or.inr (Or.inr (Or.inr (Or.inl ⟨rfl, h5.1, h5.2⟩)))
              · subst he
                exact Or.inr (Or.inr (Or.inr (Or.inr (Or.inl
                  ⟨rfl, hrange.1, hrange.2⟩))))

theorem pushedEntry_ok (es : List (Bool × ZContent)) (X : List Nat)
    (hok : entriesOk 0 es) (hXb : ∀ b ∈ X, b < 256) (hXlen : X.length < 2 ^ 32)
    (hplen : endPrevLen es < 2 ^ 32) :
    entriesOk 0 (es ++ [pushedEntry es X]) := by
  rw [entriesOk_append_one]
  refine ⟨hok, ?_, hplen, ?_⟩
  · intro hfalse
    have : decide (254 ≤ endPrevLen es) = false := hfalse
    simp only [decide_eq_false_iff_not, not_le] at this
    exact this
  · show contentOk (pushedEntry es X).2
    unfold pushedEntry
    cases henc : zipTryEncoding X with
    | none => exact ⟨hXb, hXlen⟩
    | some ve => exact zipTryEncoding_contentOk (by rw [henc])

theorem getU32_head (v : Nat) (rest : List Nat) (h : v < 2 ^ 32) :
    getU32 (natToLE 4 v ++ rest) 0 = v := by
  unfold getU32
  rw [readLE_natToLE, Nat.mod_eq_of_lt (by norm_num at h ⊢; omega)]

theorem setU32_head (mid rest : List Nat) (v : Nat) (hmid : mid.length = 4) :
    setU32 (mid ++ rest) 0 v = natToLE 4 v ++ rest := by
  unfold setU32
  have := @writeBytes_cover' (natToLE 4 v) mid [] rest
    (by rw [hmid, natToLE_length]) (natToLE_lt 4 v)
  simpa using this

theorem setU32_at4 (a mid rest : List Nat) (v : Nat) (ha : a.length = 4)
    (hmid : mid.length = 4) :
    setU32 (a ++ mid ++ rest) 4 v = a ++ natToLE 4 v ++ rest := by
  unfold setU32
  have := @writeBytes_cover' (natToLE 4 v) mid a rest
    (by rw [hmid, natToLE_length]) (natToLE_lt 4 v)
  rw [ha] at this
  simpa using this

theorem getU16_at8 (a b rest : List Nat) (cnt : Nat) (ha : a.length = 4)
    (hb : b.length = 4) (hcnt : cnt < 65536) :
    getU16 (a ++ b ++ natToLE 2 cnt ++ rest) 8 = cnt := by
  unfold getU16
  have hsplit : a ++ b ++ natToLE 2 cnt ++ rest = (a ++ b) ++ (natToLE 2 cnt ++ rest) := by
    simp
  rw [hsplit, readLE_skip _ _ (by simp [ha, hb]), readLE_natToLE,
    Nat.mod_eq_of_lt (by norm_num at hcnt ⊢; omega)]

theorem setU16_at8 (a b mid rest : List Nat) (v : Nat) (ha : a.length = 4)
    (hb : b.length = 4) (hmid : mid.length = 2) :
    setU16 (a ++ b ++ mid ++ rest) 8 v = a ++ b ++ natToLE 2 v ++ rest := by
  unfold setU16
  have := @writeBytes_cover' (natToLE 2 v) mid (a ++ b) rest
    (by rw [hmid, natToLE_length]) (natToLE_lt 2 v)
  rw [show (a ++ b).length = 8 by simp [ha, hb]] at this
  rw [show a ++ b ++ mid ++ rest = (a ++ b) ++ (mid ++ rest) by simp, this]
  simp

theorem ziplistResize_grow (hdr1 rest : List Nat) (k : Nat) (h1 : hdr1.length = 4)
    (hk : 1 ≤ k) :
    ziplistResize (hdr1 ++ rest) (4 + rest.length + k) =
      natToLE 4 (4 + rest.length + k) ++ rest ++ (List.replicate (k - 1) 0 ++ [255]) := by
  unfold ziplistResize
  have hlen : (hdr1 ++ rest).length = 4 + rest.length := by simp [h1]
  have htake : (hdr1 ++ rest).take (4 + rest.length + k) = hdr1 ++ rest :=
    List.take_of_length_le (by omega)
  have hrep : 4 + rest.length + k - (hdr1 ++ rest).length = k := by omega
  simp only [htake, hrep]
  have hset : setU32 ((hdr1 ++ rest) ++ List.replicate k 0) 0 (4 + rest.length + k) =
      natToLE 4 (4 + rest.length + k) ++ (rest ++ List.replicate k 0) := by
    rw [show (hdr1 ++ rest) ++ List.replicate k 0 = hdr1 ++ (rest ++ List.replicate k 0)
      by simp]
    exact setU32_head hdr1 (rest ++ List.replicate k 0) _ h1
  rw [hset]
  have hrep2 : List.replicate k 0 = List.replicate (k - 1) 0 ++ ([] ++ [0]) := by
    conv_lhs => rw [show k = (k - 1) + 1 by omega, List.replicate_succ']
    simp
  rw [hrep2]
  have hshape : natToLE 4 (4 + rest.length + k) ++
      (rest ++ (List.replicate (k - 1) 0 ++ ([] ++ [0]))) =
      (natToLE 4 (4 + rest.length + k) ++ rest ++ List.replicate (k - 1) 0) ++ 0 :: [] := by
    simp
  rw [hshape]
  have hpos : 4 + rest.length + k - 1 =
      (natToLE 4 (4 + rest.length + k) ++ rest ++ List.replicate (k - 1) 0).length := by
    simp [natToLE_length]
    omega
  rw [hpos, setByte_append_cover]
  simp

theorem ziplistResize_shrink (hdr1 mid : List Nat) (t0 : Nat) (ts : List Nat)
    (h1 : hdr1.length = 4) :
    ziplistResize (hdr1 ++ mid ++ t0 :: ts) (4 + mid.length + 1) =
      natToLE 4 (4 + mid.length + 1) ++ mid ++ [255] := by
  unfold ziplistResize
  have htake : (hdr1 ++ mid ++ t0 :: ts).take (4 + mid.length + 1) =
      hdr1 ++ mid ++ [t0] := by
    rw [show hdr1 ++ mid ++ t0 :: ts = (hdr1 ++ mid ++ [t0]) ++ ts by simp]
    rw [List.take_append_of_le_length (by simp [h1]; omega)]
    rw [List.take_of_length_le (by simp [h1]; omega)]
  have hrep : 4 + mid.length + 1 - (hdr1 ++ mid ++ t0 :: ts).length = 0 := by
    simp [h1]
    omega
  simp only [htake, hrep]
  have hset : setU32 ((hdr1 ++ mid ++ [t0]) ++ List.replicate 0 0) 0 (4 + mid.length + 1) =
      natToLE 4 (4 + mid.length + 1) ++ (mid ++ [t0]) := by
    rw [show (hdr1 ++ mid ++ [t0]) ++ List.replicate 0 0 = hdr1 ++ (mid ++ [t0]) by simp]
    exact setU32_head hdr1 (mid ++ [t0]) _ h1
  rw [hset]
  have hshape : natToLE 4 (4 + mid.length + 1) ++ (mid ++ [t0]) =
      (natToLE 4 (4 + mid.length + 1) ++ mid) ++ t0 :: [] := by
    simp
  rw [hshape]
  have hpos : 4 + mid.length + 1 - 1 = (natToLE 4 (4 + mid.length + 1) ++ mid).length := by
    simp [natToLE_length]
  rw [hpos, setByte_append_cover]

theorem deleteWalk_one (fuel : Nat) (zl : List Nat) (p : Nat) (hf : 2 ≤ fuel)
    (hp : readByte zl p ≠ 255) :
    deleteWalk fuel zl p 1 = (p + zipRawEntryLength zl p, 1) := by
  match fuel, hf with
  | f + 2, _ =>
    show (if (1 : Nat) = 0 then _ else if readByte zl p = 255 then _ else _) = _
    rw [if_neg (by omega), if_neg hp]
    show ((deleteWalk (f + 1) zl (p + zipRawEntryLength zl p) 0).1,
      (deleteWalk (f + 1) zl (p + zipRawEntryLength zl p) 0).2 + 1) = _
    show (((p + zipRawEntryLength zl p, 0) : Nat × Nat).1,
      ((p + zipRawEntryLength zl p, 0) : Nat × Nat).2 + 1) = _
    rfl

theorem tailEntryRawLen (es : List (Bool × ZContent)) (cnt : Nat)
    (hok : entriesOk 0 es) (hbound : 11 + (bodyOf es).length < 2 ^ 32) :
    (if readByte (zlOf es cnt) (getU32 (zlOf es cnt) 4) ≠ 255 then
       zipRawEntryLength (zlOf es cnt) (getU32 (zlOf es cnt) 4)
     else 0) = endPrevLen es := by
  rw [getU32_zlOf_tail es cnt hbound]
  rcases es.eq_nil_or_concat with hnil | ⟨es₀, e, hcat⟩
  · subst hnil
    have hterm : readByte (zlOf ([] : List (Bool × ZContent)) cnt) (tailStartOf []) = 255 := by
      rw [zlOf_walk_shape, show tailStartOf ([] : List (Bool × ZContent)) = 10 from rfl,
        ← hdrOf_length ([] : List (Bool × ZContent)) cnt]
      have h0 : (blocks 0 ([] : List (Bool × ZContent))).flatten ++ 255 :: [] = 255 :: [] := rfl
      rw [h0, readByte_at]
    rw [if_neg (by simp [hterm])]
    rfl
  · rw [List.concat_eq_append] at hcat
    subst hcat
    have hok1 := (entriesOk_append_one 0 es₀ e).1 hok
    have hflat1 : (blocks 0 (es₀ ++ [e])).flatten =
        (blocks 0 es₀).flatten ++ entryBlock (chainEnd 0 es₀) e := by
      rw [blocks_append_one, flatten_append_one]
    have hsplitzl : zlOf (es₀ ++ [e]) cnt =
        (hdrOf (es₀ ++ [e]) cnt ++ (blocks 0 es₀).flatten) ++
          (entryBlock (chainEnd 0 es₀) e ++ 255 :: []) := by
      rw [zlOf_walk_shape, hflat1]
      simp
    have hp2 : tailStartOf (es₀ ++ [e]) =
        (hdrOf (es₀ ++ [e]) cnt ++ (blocks 0 es₀).flatten).length := by
      rw [tailStartOf_append_one, bodyOf_eq_flatten]
      simp [hdrOf_length]
    have hheadE : readByte (zlOf (es₀ ++ [e]) cnt) (tailStartOf (es₀ ++ [e])) ≠ 255 := by
      rw [hsplitzl, hp2]
      exact entryBlock_head _ _ e _ hok1.2.1
    rw [if_pos (by simpa using hheadE), hsplitzl, hp2,
      zipRawEntryLength_cover _ _ e _ hok1.2.1 hok1.2.2.1 hok1.2.2.2]
    unfold endPrevLen
    rw [chainEnd_append_one]

/-! ### `push(tail, X)` on an assembled blob appends `pushedEntry` -/

theorem zipPrevEncodeLength_length (n : Nat) :
    (zipPrevEncodeLength n).length = zipPrevEncodeLengthSize n := by
  unfold zipPrevEncodeLength zipPrevEncodeLengthSize
  split <;> simp [natToLE_length]

theorem setU32_at4_norm (a mid rest : List Nat) (v : Nat) (ha : a.length = 4)
    (hmid : mid.length = 4) :
    setU32 (a ++ (mid ++ rest)) 4 v = a ++ (natToLE 4 v ++ rest) := by
  have := setU32_at4 a mid rest v ha hmid
  simpa using this

theorem readByte_nested (u1 u2 u3 body rest : List Nat) (x : Nat) (h1 : u1.length = 4)
    (h2 : u2.length = 4) (h3 : u3.length = 2) :
    readByte (u1 ++ (u2 ++ (u3 ++ (body ++ x :: rest)))) (10 + body.length) = x := by
  rw [show u1 ++ (u2 ++ (u3 ++ (body ++ x :: rest))) =
      (u1 ++ u2 ++ u3 ++ body) ++ x :: rest by simp,
    show 10 + body.length = (u1 ++ u2 ++ u3 ++ body).length by simp [h1, h2, h3]; omega]
  exact readByte_at _ _ _

theorem writes3_cover (u1 u2 u3 body rep : List Nat) (pb eb pl : List Nat)
    (h1 : u1.length = 4) (h2 : u2.length = 4) (h3 : u3.length = 2)
    (hlen : rep.length + 1 = (pb ++ eb ++ pl).length) (hlt : ∀ b ∈ pb ++ eb ++ pl, b < 256) :
    writeBytes (writeBytes (writeBytes
        (u1 ++ (u2 ++ (u3 ++ (body ++ 255 :: (rep ++ [255]))))) (10 + body.length) pb)
        (10 + body.length + pb.length) eb)
        (10 + body.length + pb.length + eb.length) pl =
      u1 ++ (u2 ++ (u3 ++ (body ++ ((pb ++ eb ++ pl) ++ [255])))) := by
  rw [← writeBytes_append, ← writeBytes_append,
    show pb ++ (eb ++ pl) = pb ++ eb ++ pl from (List.append_assoc pb eb pl).symm]
  have hc := @writeBytes_cover' (pb ++ eb ++ pl) (255 :: rep)
    (u1 ++ u2 ++ u3 ++ body) [255] (by simp at hlen ⊢; omega) hlt
  rw [show (u1 ++ u2 ++ u3 ++ body).length = 10 + body.length by simp [h1, h2, h3]; omega]
    at hc
  rw [show u1 ++ (u2 ++ (u3 ++ (body ++ 255 :: (rep ++ [255])))) =
    (u1 ++ u2 ++ u3 ++ body) ++ (255 :: rep ++ [255]) by simp]
  rw [hc]
  simp

theorem ziplistIncrLength_norm (u1 u2 rest : List Nat) (cnt : Nat) (incr : Int)
    (h1 : u1.length = 4) (h2 : u2.length = 4) (hcnt : cnt < 65536) :
    ziplistIncrLength (u1 ++ (u2 ++ (natToLE 2 cnt ++ rest))) incr =
      if cnt < 65535 then
        u1 ++ (u2 ++ (natToLE 2 ((((cnt : Nat) : Int) + incr) % 65536).toNat ++ rest))
      else u1 ++ (u2 ++ (natToLE 2 cnt ++ rest)) := by
  unfold ziplistIncrLength
  have hg : getU16 (u1 ++ (u2 ++ (natToLE 2 cnt ++ rest))) 8 = cnt := by
    have := getU16_at8 u1 u2 rest cnt h1 h2 hcnt
    simpa using this
  rw [hg]
  split
  · have := setU16_at8 u1 u2 (natToLE 2 cnt) rest ((((cnt : Nat) : Int) + incr) % 65536).toNat
      h1 h2 (natToLE_length ..)
    simpa using this
  · rfl

theorem ziplistPush_tail (es : List (Bool × ZContent)) (cnt : Nat) (X : List Nat)
    (hcnt : cnt < 65536) (hok : entriesOk 0 es) (hXb : ∀ b ∈ X, b < 256)
    (hbound2 : 11 + (bodyOf (es ++ [pushedEntry es X])).length < 2 ^ 32) :
    ziplistPush (zlOf es cnt) X 1 =
      zlOf (es ++ [pushedEntry es X]) (if cnt < 65535 then cnt + 1 else cnt) := by
  have hbody1 : bodyOf (es ++ [pushedEntry es X]) =
      bodyOf es ++ entryBlock (endPrevLen es) (pushedEntry es X) :=
    bodyOf_append_one es (pushedEntry es X)
  have hbound : 11 + (bodyOf es).length < 2 ^ 32 := by
    rw [hbody1] at hbound2
    simp only [List.length_append] at hbound2
    omega
  have hplen_lt : endPrevLen es < 2 ^ 32 := by
    have := endPrevLen_le es
    omega
  have hBpos : 1 ≤ (entryBlock (endPrevLen es) (pushedEntry es X)).length :=
    entryBlock_pos _ _
  have hsmallE : (pushedEntry es X).1 = false → endPrevLen es < 254 := by
    intro hf
    have h2 : decide (254 ≤ endPrevLen es) = false := hf
    simp only [decide_eq_false_iff_not, not_le] at h2
    exact h2
  have hcur := getU32_zlOf_bytes es cnt hbound
  have hterm : readByte (zlOf es cnt) (10 + (bodyOf es).length) = 255 := by
    rw [zlOf_shape,
      show hdrOf es cnt ++ (bodyOf es ++ [255]) =
        (hdrOf es cnt ++ bodyOf es) ++ 255 :: [] by simp,
      show 10 + (bodyOf es).length = (hdrOf es cnt ++ bodyOf es).length by
        simp [hdrOf_length]]
    exact readByte_at _ 255 []
  have hz0 : zlOf es cnt = natToLE 4 (11 + (bodyOf es).length) ++
      (natToLE 4 (tailStartOf es) ++ natToLE 2 cnt ++ bodyOf es ++ [255]) := by
    unfold zlOf
    simp
  have hre : ziplistResize (zlOf es cnt)
      (11 + (bodyOf es).length + (entryBlock (endPrevLen es) (pushedEntry es X)).length) =
      natToLE 4 (11 + (bodyOf es).length +
          (entryBlock (endPrevLen es) (pushedEntry es X)).length) ++
        (natToLE 4 (tailStartOf es) ++ natToLE 2 cnt ++ bodyOf es ++ [255]) ++
        (List.replicate ((entryBlock (endPrevLen es) (pushedEntry es X)).length - 1) 0 ++
          [255]) := by
    rw [hz0]
    have hlenr : (natToLE 4 (tailStartOf es) ++ natToLE 2 cnt ++ bodyOf es ++ [255]).length =
        7 + (bodyOf es).length := by
      simp [natToLE_length]
      omega
    have := ziplistResize_grow (natToLE 4 (11 + (bodyOf es).length))
      (natToLE 4 (tailStartOf es) ++ natToLE 2 cnt ++ bodyOf es ++ [255])
      (entryBlock (endPrevLen es) (pushedEntry es X)).length (natToLE_length ..) hBpos
    rw [hlenr] at this
    rw [show 11 + (bodyOf es).length +
        (entryBlock (endPrevLen es) (pushedEntry es X)).length =
        4 + (7 + (bodyOf es).length) +
        (entryBlock (endPrevLen es) (pushedEntry es X)).length by omega]
    exact this
  have hterm2 : readByte (natToLE 4 (11 + (bodyOf es).length +
      (entryBlock (endPrevLen es) (pushedEntry es X)).length) ++
      (natToLE 4 (tailStartOf es) ++ (natToLE 2 cnt ++ (bodyOf es ++ 255 ::
        (List.replicate ((entryBlock (endPrevLen es) (pushedEntry es X)).length - 1) 0 ++
          [255])))))
      (10 + (bodyOf es).length) = 255 :=
    readByte_nested _ _ _ _ _ 255 (natToLE_length ..) (natToLE_length ..) (natToLE_length ..)
  have hset4 : setU32 (natToLE 4 (11 + (bodyOf es).length +
      (entryBlock (endPrevLen es) (pushedEntry es X)).length) ++
      (natToLE 4 (tailStartOf es) ++ (natToLE 2 cnt ++ (bodyOf es ++ 255 ::
        (List.replicate ((entryBlock (endPrevLen es) (pushedEntry es X)).length - 1) 0 ++
          [255])))))
      4 (10 + (bodyOf es).length) =
      natToLE 4 (11 + (bodyOf es).length +
        (entryBlock (endPrevLen es) (pushedEntry es X)).length) ++
      (natToLE 4 (10 + (bodyOf es).length) ++ (natToLE 2 cnt ++ (bodyOf es ++ 255 ::
        (List.replicate ((entryBlock (endPrevLen es) (pushedEntry es X)).length - 1) 0 ++
          [255])))) :=
    setU32_at4_norm _ _ _ _ (natToLE_length ..) (natToLE_length ..)
  have hstep1 : ziplistPush (zlOf es cnt) X 1 =
      ziplistInsertBase (zlOf es cnt) (getU32 (zlOf es cnt) 0 - 1) X := rfl
  rw [hstep1, hcur, show 11 + (bodyOf es).length - 1 = 10 + (bodyOf es).length by omega]
  rcases henc : zipTryEncoding X with _ | ve
  · -- the bytes do not parse as an integer: the entry stores the string `X`
    have hE : pushedEntry es X = (decide (254 ≤ endPrevLen es), ZContent.str X) := by
      unfold pushedEntry
      rw [henc]
    have hXlen : X.length < 2 ^ 32 := by
      have hcb : entryBlock (endPrevLen es) (pushedEntry es X) =
          prevFieldBytes (decide (254 ≤ endPrevLen es)) (endPrevLen es) ++
            (zipEncodeLength 0 X.length ++ X) := by
        rw [hE]
        rfl
      have h3 := hbound2
      rw [hbody1, hcb] at h3
      simp only [List.length_append] at h3
      omega
    have hcontentE : contentOk (pushedEntry es X).2 := by
      rw [hE]
      exact ⟨hXb, hXlen⟩
    have hltB : ∀ b ∈ entryBlock (endPrevLen es) (pushedEntry es X), b < 256 :=
      entryBlock_lt _ _ hsmallE hcontentE
    have hB : zipPrevEncodeLength (endPrevLen es) ++ zipEncodeLength 0 X.length ++ X =
        entryBlock (endPrevLen es) (pushedEntry es X) := by
      rw [hE]
      show _ = prevFieldBytes (decide (254 ≤ endPrevLen es)) (endPrevLen es) ++
        contentBytes (ZContent.str X)
      rw [prevFieldBytes_decide, List.append_assoc]
      rfl
    have hreq : X.length + zipPrevEncodeLengthSize (endPrevLen es) +
        (zipEncodeLength 0 X.length).length =
        (entryBlock (endPrevLen es) (pushedEntry es X)).length := by
      rw [← hB]
      simp [zipPrevEncodeLength_length]
      omega
    simp only [ziplistInsertBase, henc, hcur, hterm]
    simp only [ne_eq, not_true_eq_false, if_false, ite_false]
    rw [tailEntryRawLen es cnt hok hbound]
    rw [hreq]
    rw [show ((((11 + (bodyOf es).length : Nat) : Int)) +
        ((entryBlock (endPrevLen es) (pushedEntry es X)).length : Nat) + 0).toNat =
        11 + (bodyOf es).length +
          (entryBlock (endPrevLen es) (pushedEntry es X)).length by push_cast; omega]
    rw [hre]
    simp only [List.append_assoc, List.singleton_append]
    simp only [hterm2, not_true_eq_false, if_false, ite_false, eq_self_iff_true]
    rw [hset4]
    rw [if_pos (show zipIsStr 0 = true by decide)]
    rw [writes3_cover _ _ _ _ _ _ _ _ (natToLE_length ..) (natToLE_length ..)
      (natToLE_length ..)
      (by rw [hB]; simp; omega)
      (by rw [hB]; exact hltB)]
    rw [hB]
    rw [ziplistIncrLength_norm _ _ _ cnt 1 (natToLE_length ..) (natToLE_length ..) hcnt]
    by_cases h65 : cnt < 65535
    · rw [if_pos h65, if_pos h65,
        show ((((cnt : Nat) : Int) + 1) % 65536).toNat = cnt + 1 by omega]
      rw [show zlOf (es ++ [pushedEntry es X]) (cnt + 1) =
        natToLE 4 (11 + (bodyOf (es ++ [pushedEntry es X])).length) ++
          (natToLE 4 (tailStartOf (es ++ [pushedEntry es X])) ++
            (natToLE 2 (cnt + 1) ++ (bodyOf (es ++ [pushedEntry es X]) ++ [255]))) by
        unfold zlOf; simp]
      rw [hbody1, tailStartOf_append_one,
        show 11 + (bodyOf es ++ entryBlock (endPrevLen es) (pushedEntry es X)).length =
          11 + (bodyOf es).length +
            (entryBlock (endPrevLen es) (pushedEntry es X)).length by simp; omega]
      simp
    · rw [if_neg h65, if_neg h65]
      rw [show zlOf (es ++ [pushedEntry es X]) cnt =
        natToLE 4 (11 + (bodyOf (es ++ [pushedEntry es X])).length) ++
          (natToLE 4 (tailStartOf (es ++ [pushedEntry es X])) ++
            (natToLE 2 cnt ++ (bodyOf (es ++ [pushedEntry es X]) ++ [255]))) by
        unfold zlOf; simp]
      rw [hbody1, tailStartOf_append_one,
        show 11 + (bodyOf es ++ entryBlock (endPrevLen es) (pushedEntry es X)).length =
          11 + (bodyOf es).length +
            (entryBlock (endPrevLen es) (pushedEntry es X)).length by simp; omega]
      simp
  · -- the bytes parse as an integer `ve.1` with encoding `ve.2`
    have hE : pushedEntry es X = (decide (254 ≤ endPrevLen es), ZContent.int ve.1 ve.2) := by
      unfold pushedEntry
      rw [henc]
    have hcontent : contentOk (.int ve.1 ve.2) := zipTryEncoding_contentOk henc
    have hcontentE : contentOk (pushedEntry es X).2 := by
      rw [hE]
      exact hcontent
    have hisStr : zipIsStr ve.2 = false :=
      zipIsStr_false_of_ge (intEnc_not_str hcontent) (contentOk_int_lt hcontent)
    have hltB : ∀ b ∈ entryBlock (endPrevLen es) (pushedEntry es X), b < 256 :=
      entryBlock_lt _ _ hsmallE hcontentE
    have hB : zipPrevEncodeLength (endPrevLen es) ++ zipEncodeLength ve.2 X.length ++
        zipSaveInteger ve.1 ve.2 =
        entryBlock (endPrevLen es) (pushedEntry es X) := by
      rw [hE]
      show _ = prevFieldBytes (decide (254 ≤ endPrevLen es)) (endPrevLen es) ++
        contentBytes (ZContent.int ve.1 ve.2)
      rw [prevFieldBytes_decide, List.append_assoc,
        show contentBytes (ZContent.int ve.1 ve.2) =
          zipEncodeLength ve.2 0 ++ zipSaveInteger ve.1 ve.2 from rfl,
        zipEncodeLength_int (by simp [hisStr]) X.length,
        zipEncodeLength_int (by simp [hisStr]) 0]
    have hreq : zipIntSize ve.2 + zipPrevEncodeLengthSize (endPrevLen es) +
        (zipEncodeLength ve.2 X.length).length =
        (entryBlock (endPrevLen es) (pushedEntry es X)).length := by
      rw [← hB]
      simp [zipPrevEncodeLength_length, @zipEncodeLength_int ve.2 (by simp [hisStr]) X.length,
        zipSaveInteger_length hcontent]
      omega
    simp only [ziplistInsertBase, henc, hcur, hterm]
    simp only [ne_eq, not_true_eq_false, if_false, ite_false]
    rw [tailEntryRawLen es cnt hok hbound]
    rw [hreq]
    rw [show ((((11 + (bodyOf es).length : Nat) : Int)) +
        ((entryBlock (endPrevLen es) (pushedEntry es X)).length : Nat) + 0).toNat =
        11 + (bodyOf es).length +
          (entryBlock (endPrevLen es) (pushedEntry es X)).length by push_cast; omega]
    rw [hre]
    simp only [List.append_assoc, List.singleton_append]
    simp only [hterm2, not_true_eq_false, if_false, ite_false, eq_self_iff_true]
    rw [hset4]
    rw [if_neg (by rw [hisStr]; simp)]
    rw [writes3_cover _ _ _ _ _ _ _ _ (natToLE_length ..) (natToLE_length ..)
      (natToLE_length ..)
      (by rw [hB]; simp; omega)
      (by rw [hB]; exact hltB)]
    rw [hB]
    rw [ziplistIncrLength_norm _ _ _ cnt 1 (natToLE_length ..) (natToLE_length ..) hcnt]
    by_cases h65 : cnt < 65535
    · rw [if_pos h65, if_pos h65,
        show ((((cnt : Nat) : Int) + 1) % 65536).toNat = cnt + 1 by omega]
      rw [show zlOf (es ++ [pushedEntry es X]) (cnt + 1) =
        natToLE 4 (11 + (bodyOf (es ++ [pushedEntry es X])).length) ++
          (natToLE 4 (tailStartOf (es ++ [pushedEntry es X])) ++
            (natToLE 2 (cnt + 1) ++ (bodyOf (es ++ [pushedEntry es X]) ++ [255]))) by
        unfold zlOf; simp]
      rw [hbody1, tailStartOf_append_one,
        show 11 + (bodyOf es ++ entryBlock (endPrevLen es) (pushedEntry es X)).length =
          11 + (bodyOf es).length +
            (entryBlock (endPrevLen es) (pushedEntry es X)).length by simp; omega]
      simp
    · rw [if_neg h65, if_neg h65]
      rw [show zlOf (es ++ [pushedEntry es X]) cnt =
        natToLE 4 (11 + (bodyOf (es ++ [pushedEntry es X])).length) ++
          (natToLE 4 (tailStartOf (es ++ [pushedEntry es X])) ++
            (natToLE 2 cnt ++ (bodyOf (es ++ [pushedEntry es X]) ++ [255]))) by
        unfold zlOf; simp]
      rw [hbody1, tailStartOf_append_one,
        show 11 + (bodyOf es ++ entryBlock (endPrevLen es) (pushedEntry es X)).length =
          11 + (bodyOf es).length +
            (entryBlock (endPrevLen es) (pushedEntry es X)).length by simp; omega]
      simp

/-! ### `delete` of the tail entry on an assembled blob drops the last entry -/

theorem ziplistDeleteTail (es : List (Bool × ZContent)) (e : Bool × ZContent) (cnt : Nat)
    (hcnt : cnt < 65536) (hok : entriesOk 0 (es ++ [e]))
    (hbound : 11 + (bodyOf (es ++ [e])).length < 2 ^ 32) :
    ziplistDeleteBase (zlOf (es ++ [e]) cnt) (tailStartOf (es ++ [e])) 1 =
      zlOf es (if cnt < 65535 then ((((cnt : Nat) : Int) - 1) % 65536).toNat else cnt) := by
  obtain ⟨hok0, hsm, hlt, hc⟩ := (entriesOk_append_one 0 es e).1 hok
  have hbodyE : bodyOf (es ++ [e]) = bodyOf es ++ entryBlock (endPrevLen es) e :=
    bodyOf_append_one es e
  have htail : tailStartOf (es ++ [e]) = 10 + (bodyOf es).length :=
    tailStartOf_append_one es e
  have hBpos : 1 ≤ (entryBlock (endPrevLen es) e).length := entryBlock_pos _ _
  have hsplit : zlOf (es ++ [e]) cnt =
      (hdrOf (es ++ [e]) cnt ++ bodyOf es) ++
        (entryBlock (endPrevLen es) e ++ 255 :: []) := by
    rw [zlOf_shape, hbodyE]
    simp
  have hprelen : (hdrOf (es ++ [e]) cnt ++ bodyOf es).length = 10 + (bodyOf es).length := by
    simp [hdrOf_length]
  have hhead : readByte (zlOf (es ++ [e]) cnt) (10 + (bodyOf es).length) ≠ 255 := by
    rw [hsplit, ← hprelen]
    exact entryBlock_head _ _ e _ hsm
  have hraw : zipRawEntryLength (zlOf (es ++ [e]) cnt) (10 + (bodyOf es).length) =
      (entryBlock (endPrevLen es) e).length := by
    rw [hsplit, ← hprelen]
    exact zipRawEntryLength_cover _ _ e _ hsm hlt hc
  have hfirst : zipEntry (zlOf (es ++ [e]) cnt) (10 + (bodyOf es).length) =
      ⟨prevFieldSize e.1, endPrevLen es, (contentHeadInfo e.2).2.1, (contentHeadInfo e.2).2.2,
        prevFieldSize e.1 + (contentHeadInfo e.2).2.1, (contentHeadInfo e.2).1,
        10 + (bodyOf es).length⟩ := by
    rw [hsplit, ← hprelen]
    exact zipEntry_cover _ _ e _ hsm hlt hc
  have hdw : deleteWalk ((zlOf (es ++ [e]) cnt).length + 1) (zlOf (es ++ [e]) cnt)
      (10 + (bodyOf es).length) 1 =
      (10 + (bodyOf es).length + (entryBlock (endPrevLen es) e).length, 1) := by
    rw [deleteWalk_one _ _ _ (by rw [zlOf_length]; omega) hhead, hraw]
  have hq255 : readByte (zlOf (es ++ [e]) cnt)
      (10 + (bodyOf es).length + (entryBlock (endPrevLen es) e).length) = 255 := by
    rw [zlOf_shape,
      show hdrOf (es ++ [e]) cnt ++ (bodyOf (es ++ [e]) ++ [255]) =
        (hdrOf (es ++ [e]) cnt ++ bodyOf (es ++ [e])) ++ 255 :: [] by simp,
      show 10 + (bodyOf es).length + (entryBlock (endPrevLen es) e).length =
        (hdrOf (es ++ [e]) cnt ++ bodyOf (es ++ [e])).length by
          simp [hdrOf_length, hbodyE]
          omega]
    exact readByte_at _ 255 []
  have hz0E : zlOf (es ++ [e]) cnt = natToLE 4 (11 + (bodyOf (es ++ [e])).length) ++
      (natToLE 4 (tailStartOf (es ++ [e])) ++ (natToLE 2 cnt ++
        (bodyOf (es ++ [e]) ++ [255]))) := by
    unfold zlOf
    simp
  obtain ⟨b0, Bt, hBcons⟩ :
      ∃ b0 Bt, entryBlock (endPrevLen es) e = b0 :: Bt := by
    cases hE : entryBlock (endPrevLen es) e with
    | nil => rw [hE] at hBpos; simp at hBpos
    | cons b0 Bt => exact ⟨b0, Bt, rfl⟩
  have hshr : ziplistResize (natToLE 4 (11 + (bodyOf (es ++ [e])).length) ++
      (natToLE 4 (tailStartOf es) ++ (natToLE 2 cnt ++ (bodyOf (es ++ [e]) ++ [255]))))
      (11 + (bodyOf es).length) =
      natToLE 4 (11 + (bodyOf es).length) ++
        (natToLE 4 (tailStartOf es) ++ (natToLE 2 cnt ++ (bodyOf es ++ [255]))) := by
    have harg : natToLE 4 (11 + (bodyOf (es ++ [e])).length) ++
        (natToLE 4 (tailStartOf es) ++ (natToLE 2 cnt ++ (bodyOf (es ++ [e]) ++ [255]))) =
        natToLE 4 (11 + (bodyOf (es ++ [e])).length) ++
          (natToLE 4 (tailStartOf es) ++ natToLE 2 cnt ++ bodyOf es) ++
          b0 :: (Bt ++ [255]) := by
      rw [hbodyE, hBcons]
      simp
    rw [harg]
    have hmidlen : (natToLE 4 (tailStartOf es) ++ natToLE 2 cnt ++ bodyOf es).length =
        6 + (bodyOf es).length := by
      simp [natToLE_length]
      omega
    have := ziplistResize_shrink (natToLE 4 (11 + (bodyOf (es ++ [e])).length))
      (natToLE 4 (tailStartOf es) ++ natToLE 2 cnt ++ bodyOf es) b0 (Bt ++ [255])
      (natToLE_length ..)
    rw [hmidlen] at this
    rw [show 11 + (bodyOf es).length = 4 + (6 + (bodyOf es).length) + 1 by omega]
    rw [this]
    simp
  show ziplistDeleteBase (zlOf (es ++ [e]) cnt) (tailStartOf (es ++ [e])) 1 = _
  rw [htail]
  simp only [ziplistDeleteBase, hdw, hfirst]
  rw [show 10 + (bodyOf es).length + (entryBlock (endPrevLen es) e).length -
    (10 + (bodyOf es).length) = (entryBlock (endPrevLen es) e).length by omega]
  rw [if_neg (show ¬((entryBlock (endPrevLen es) e).length = 0) by omega)]
  simp only [hq255, ne_eq, not_true_eq_false, if_false, ite_false]
  rw [show 10 + (bodyOf es).length - endPrevLen es = tailStartOf es by
    have := tailStart_add_endPrev es
    omega]
  rw [show setU32 (zlOf (es ++ [e]) cnt) 4 (tailStartOf es) =
      natToLE 4 (11 + (bodyOf (es ++ [e])).length) ++
        (natToLE 4 (tailStartOf es) ++ (natToLE 2 cnt ++ (bodyOf (es ++ [e]) ++ [255]))) by
    rw [hz0E]
    exact setU32_at4_norm _ _ _ _ (natToLE_length ..) (natToLE_length ..)]
  rw [getU32_head _ _ hbound]
  rw [show ((((11 + (bodyOf (es ++ [e])).length : Nat) : Int)) -
      ((entryBlock (endPrevLen es) e).length : Nat)).toNat = 11 + (bodyOf es).length by
    rw [hbodyE]
    simp only [List.length_append]
    push_cast
    omega]
  rw [hshr]
  rw [ziplistIncrLength_norm _ _ _ cnt (-((1 : Nat) : Int)) (natToLE_length ..)
    (natToLE_length ..) hcnt]
  by_cases h65 : cnt < 65535
  · rw [if_pos h65, if_pos h65]
    rw [show zlOf es ((((cnt : Nat) : Int) - 1) % 65536).toNat =
      natToLE 4 (11 + (bodyOf es).length) ++
        (natToLE 4 (tailStartOf es) ++
          (natToLE 2 ((((cnt : Nat) : Int) - 1) % 65536).toNat ++ (bodyOf es ++ [255]))) by
      unfold zlOf
      simp]
    rw [show (((cnt : Nat) : Int) + -((1 : Nat) : Int)) % 65536 =
      (((cnt : Nat) : Int) - 1) % 65536 by push_cast; ring_nf]
  · rw [if_neg h65, if_neg h65]
    rw [show zlOf es cnt =
      natToLE 4 (11 + (bodyOf es).length) ++
        (natToLE 4 (tailStartOf es) ++ (natToLE 2 cnt ++ (bodyOf es ++ [255]))) by
      unfold zlOf
      simp]

/-! ### The push-then-delete-tail round trip -/

theorem pushThenDeleteTail_eq (es : List (Bool × ZContent)) (cnt : Nat) (X : List Nat)
    (hcnt : cnt < 65536) (hok : entriesOk 0 es) (hXb : ∀ b ∈ X, b < 256)
    (hbound2 : 11 + (bodyOf (es ++ [pushedEntry es X])).length < 2 ^ 32) :
    pushThenDeleteTail (zlOf es cnt) X =
      zlOf es (if cnt = 65534 then 65535 else cnt) := by
  have hbound : 11 + (bodyOf es).length < 2 ^ 32 := by
    rw [bodyOf_append_one] at hbound2
    simp only [List.length_append] at hbound2
    omega
  have hplen_lt : endPrevLen es < 2 ^ 32 := by
    have := endPrevLen_le es
    omega
  have hXlen : X.length < 2 ^ 32 := by
    cases henc : zipTryEncoding X with
    | some ve =>
      unfold zipTryEncoding at henc
      split at henc
      · exact absurd henc (by simp)
      · next hg =>
        push_neg at hg
        omega
    | none =>
      have hE : pushedEntry es X = (decide (254 ≤ endPrevLen es), ZContent.str X) := by
        unfold pushedEntry
        rw [henc]
      have h3 := hbound2
      rw [bodyOf_append_one,
        show entryBlock (endPrevLen es) (pushedEntry es X) =
          prevFieldBytes (decide (254 ≤ endPrevLen es)) (endPrevLen es) ++
            (zipEncodeLength 0 X.length ++ X) by rw [hE]; rfl] at h3
      simp only [List.length_append] at h3
      omega
  have hok2 : entriesOk 0 (es ++ [pushedEntry es X]) :=
    pushedEntry_ok es X hok hXb hXlen hplen_lt
  have hcnt1 : (if cnt < 65535 then cnt + 1 else cnt) < 65536 := by
    split <;> omega
  have hpush := ziplistPush_tail es cnt X hcnt hok hXb hbound2
  have hlen1 : (es ++ [pushedEntry es X]).length = es.length + 1 := by simp
  have hlast : (startList 10 0 (es ++ [pushedEntry es X])).getD
      ((es ++ [pushedEntry es X]).length - 1) 0 = 10 + (bodyOf es).length := by
    rw [startList_append_one]
    rw [show (es ++ [pushedEntry es X]).length - 1 = es.length by simp]
    rw [show es.length = (startList 10 0 es).length from (startList_length 10 0 es).symm]
    rw [getD_append_len]
    rw [← bodyOf_eq_flatten]
  have hidx : ziplistIndex (zlOf (es ++ [pushedEntry es X])
      (if cnt < 65535 then cnt + 1 else cnt)) (-1) = some (10 + (bodyOf es).length) := by
    rw [ziplistIndex_spec (es ++ [pushedEntry es X]) (if cnt < 65535 then cnt + 1 else cnt)
      (-1) hcnt1 hok2 hbound2]
    unfold idxSpec
    rw [if_neg (show ¬((0 : Int) ≤ -1 ∧
      (-1 : Int) ≤ (((es ++ [pushedEntry es X]).length : Nat) : Int) - 1) from
      fun h => by omega)]
    rw [if_pos (show -(((es ++ [pushedEntry es X]).length : Nat) : Int) ≤ -1 ∧
      (-1 : Int) < 0 from ⟨by rw [hlen1]; push_cast; omega, by norm_num⟩)]
    rw [show ((-(-1 : Int)).toNat) = 1 from rfl]
    rw [hlast]
  unfold pushThenDeleteTail ziplistDeleteRange
  rw [hpush, hidx]
  show ziplistDeleteBase (zlOf (es ++ [pushedEntry es X])
    (if cnt < 65535 then cnt + 1 else cnt)) (10 + (bodyOf es).length) 1 = _
  rw [← tailStartOf_append_one es (pushedEntry es X)]
  rw [ziplistDeleteTail es (pushedEntry es X) (if cnt < 65535 then cnt + 1 else cnt)
    hcnt1 hok2 hbound2]
  have hcnt2 : (if (if cnt < 65535 then cnt + 1 else cnt) < 65535 then
      (((Nat.cast (if cnt < 65535 then cnt + 1 else cnt) : Int) - 1) % 65536).toNat
    else (if cnt < 65535 then cnt + 1 else cnt)) = (if cnt = 65534 then 65535 else cnt) := by
    by_cases h1 : cnt < 65535
    · rw [if_pos h1]
      by_cases h2 : cnt = 65534
      · subst h2
        norm_num
      · rw [if_neg h2, if_pos (by omega)]
        omega
    · rw [if_neg h1, if_neg h1, if_neg (show ¬(cnt = 65534) by omega)]
  rw [hcnt2]

/-! ### A 65534-entry blob: well-formedness by induction -/

theorem repAok (k : Nat) :
    entriesOk 3 (List.replicate k ((false : Bool), ZContent.str [97])) ∧
    ((blocks 3 (List.replicate k ((false : Bool), ZContent.str [97]))).flatten).length =
      3 * k := by
  induction k with
  | zero => exact ⟨trivial, rfl⟩
  | succ k ih =>
    rw [List.replicate_succ]
    constructor
    · rw [entriesOk_cons]
      refine ⟨fun _ => by norm_num, by norm_num, by decide, ?_⟩
      rw [show (entryBlock 3 ((false : Bool), ZContent.str [97])).length = 3 from rfl]
      exact ih.1
    · rw [blocks_cons, List.flatten_cons, List.length_append]
      rw [show (entryBlock 3 ((false : Bool), ZContent.str [97])).length = 3 from rfl]
      rw [ih.2]
      omega

theorem esBig_ok : entriesOk 0 esBig := by
  show entriesOk 0 (((false : Bool), ZContent.str [97]) ::
    List.replicate 65533 ((false : Bool), ZContent.str [97]))
  rw [entriesOk_cons]
  refine ⟨fun _ => by norm_num, by norm_num, by decide, ?_⟩
  rw [show (entryBlock 0 ((false : Bool), ZContent.str [97])).length = 3 from rfl]
  exact (repAok 65533).1

theorem esBig_body : (bodyOf esBig).length = 196602 := by
  show ((blocks 0 (((false : Bool), ZContent.str [97]) ::
    List.replicate 65533 ((false : Bool), ZContent.str [97]))).flatten).length = _
  rw [blocks_cons, List.flatten_cons, List.length_append]
  rw [show (entryBlock 0 ((false : Bool), ZContent.str [97])).length = 3 from rfl]
  rw [(repAok 65533).2]

theorem esBig_len : esBig.length = 65534 := by
  show (((false : Bool), ZContent.str [97]) ::
    List.replicate 65533 ((false : Bool), ZContent.str [97])).length = _
  rw [List.length_cons, List.length_replicate]

/-! ### Claim C5: the round trip sticks at the count saturation boundary -/

/-- C5 counterexample: `zlBig` is a well-formed blob of 65534 entries whose
count field holds the exact entry count, yet `push(tail, "a")` followed by
`delete(tail)` does not restore it: the push raises the count field to
`0xFFFF`, and the delete's `ZIPLIST_INCR_LENGTH` skips the decrement at
`UINT16_MAX`, so the count field stays `0xFFFF` instead of returning to
65534. -/
theorem pushThenDeleteTail_countStuck :
    Reps zlBig esBig ∧ getU16 zlBig 8 = min esBig.length 65535 ∧
    pushThenDeleteTail zlBig [97] ≠ zlBig := by
  have hok := esBig_ok
  have hb := esBig_body
  have hbound : 11 + (bodyOf esBig).length < 2 ^ 32 := by
    rw [hb]
    norm_num
  have hcb : (contentBytes (pushedEntry esBig [97]).2).length = 2 := by
    rw [show pushedEntry esBig [97] =
      (decide (254 ≤ endPrevLen esBig), ZContent.str [97]) by
        unfold pushedEntry
        rw [show zipTryEncoding [97] = none by decide]]
    rfl
  have hBle : (entryBlock (endPrevLen esBig) (pushedEntry esBig [97])).length ≤ 7 := by
    unfold entryBlock
    rw [List.length_append, prevFieldBytes_length, hcb]
    cases h : (pushedEntry esBig [97]).1 <;> simp [prevFieldSize]
  have hbound2 : 11 + (bodyOf (esBig ++ [pushedEntry esBig [97]])).length < 2 ^ 32 := by
    rw [bodyOf_append_one, List.length_append, hb]
    omega
  refine ⟨⟨65534, by norm_num, rfl, hok, hbound⟩, ?_, ?_⟩
  · rw [show zlBig = zlOf esBig 65534 from rfl, getU16_zlOf _ _ (by norm_num), esBig_len]
    omega
  · have heq := pushThenDeleteTail_eq esBig 65534 [97] (by norm_num) hok
      (by decide) hbound2
    rw [if_pos rfl] at heq
    rw [show zlBig = zlOf esBig 65534 from rfl]
    rw [heq]
    intro hcontra
    have h1 := congrArg (fun l => getU16 l 8) hcontra
    simp only at h1
    rw [getU16_zlOf _ _ (by norm_num), getU16_zlOf _ _ (by norm_num)] at h1
    exact absurd h1 (by norm_num)

/-- C5 (amended): on a well-formed blob, `push(tail, X); delete(tail)` is
byte-identical to the original blob whenever the stored count differs from
65534; at stored count 65534 every byte is restored except the count field,
which the push saturates to `0xFFFF` and the delete leaves there (the
decrement is skipped at `UINT16_MAX`). -/
theorem pushThenDeleteTail_roundTrip (es : List (Bool × ZContent)) (cnt : Nat)
    (X : List Nat) (hcnt : cnt < 65536) (hok : entriesOk 0 es)
    (hXb : ∀ b ∈ X, b < 256)
    (hbound2 : 11 + (bodyOf (es ++ [pushedEntry es X])).length < 2 ^ 32) :
    pushThenDeleteTail (zlOf es cnt) X =
      zlOf es (if cnt = 65534 then 65535 else cnt) :=
  pushThenDeleteTail_eq es cnt X hcnt hok hXb hbound2

theorem pushThenDeleteTail_roundTrip_witness :
    pushThenDeleteTail (zlOf [((false : Bool), ZContent.str [97])] 1) [98] =
      zlOf [((false : Bool), ZContent.str [97])] (if 1 = 65534 then 65535 else 1) :=
  pushThenDeleteTail_roundTrip [((false : Bool), ZContent.str [97])] 1 [98]
    (by decide) (by decide) (by decide) (by decide)

/-! ### Claim C10: integer payload save/load round trip -/

theorem toSigned_twosComp8 {v : Int} (h1 : -128 ≤ v) (h2 : v ≤ 127) :
    toSigned 8 (twosComp 8 v) = v := by
  unfold toSigned twosComp
  split <;> omega

theorem toSigned_twosComp16 {v : Int} (h1 : -32768 ≤ v) (h2 : v ≤ 32767) :
    toSigned 16 (twosComp 16 v) = v := by
  unfold toSigned twosComp
  split <;> omega

theorem toSigned_twosComp32 {v : Int} (h1 : -2147483648 ≤ v) (h2 : v ≤ 2147483647) :
    toSigned 32 (twosComp 32 v) = v := by
  unfold toSigned twosComp
  split <;> omega

theorem toSigned_twosComp64 {v : Int} (h1 : -(2 ^ 63) ≤ v) (h2 : v ≤ 2 ^ 63 - 1) :
    toSigned 64 (twosComp 64 v) = v := by
  unfold toSigned twosComp
  split <;> omega

theorem twosComp_lt (k : Nat) (v : Int) : twosComp k v < 2 ^ k := by
  unfold twosComp
  have h3 : v % ((2 ^ k : Nat) : Int) < ((2 ^ k : Nat) : Int) :=
    Int.emod_lt_of_pos _ (by positivity)
  have h0 : (0 : Int) ≤ v % ((2 ^ k : Nat) : Int) := Int.emod_nonneg _ (by positivity)
  omega

theorem readLE_natToLE_nil (k n : Nat) : readLE (natToLE k n) 0 k = n % 2 ^ (8 * k) := by
  have := readLE_natToLE k n []
  simpa using this

set_option maxHeartbeats 1000000 in
/-- C10: for every integer encoding and every value in that encoding's
representable range (`imm4` values being determined by the encoding byte
itself), `zipSaveInteger` followed by `zipLoadInteger` under the same encoding
returns exactly the stored value, including the sign-extending
load of the 3-byte `i24` payload. -/
theorem zipSaveLoad_roundTrip (v : Int) (e : Nat) (h : contentOk (.int v e)) :
    zipLoadInteger (zipSaveInteger v e) 0 e = v := by
  unfold contentOk at h
  rcases h with ⟨he, h1, h2⟩ | ⟨he, h1, h2⟩ | ⟨he, h1, h2⟩ | ⟨he, h1, h2⟩ |
    ⟨he, h1, h2⟩ | ⟨he1, he2, hv⟩
  · -- i8
    subst he
    show zipLoadInteger [twosComp 8 v] 0 0xfe = v
    show toSigned 8 (readByte [twosComp 8 v] 0) = v
    rw [show readByte [twosComp 8 v] 0 = twosComp 8 v from rfl]
    exact toSigned_twosComp8 h1 h2
  · -- i16
    subst he
    show zipLoadInteger (natToLE 2 (twosComp 16 v)) 0 0xc0 = v
    show toSigned 16 (readLE (natToLE 2 (twosComp 16 v)) 0 2) = v
    rw [readLE_natToLE_nil,
      Nat.mod_eq_of_lt (show twosComp 16 v < 2 ^ (8 * 2) from twosComp_lt 16 v)]
    exact toSigned_twosComp16 h1 h2
  · -- i24
    subst he
    show zipLoadInteger ((natToLE 4 (twosComp 32 (v * 256))).drop 1) 0 0xf0 = v
    show toSigned 32
      (readLE ((natToLE 4 (twosComp 32 (v * 256))).drop 1) 0 3 * 256) / 256 = v
    rw [show (natToLE 4 (twosComp 32 (v * 256))).drop 1 =
      natToLE 3 (twosComp 32 (v * 256) / 256) from rfl]
    rw [readLE_natToLE_nil]
    have hlt := twosComp_lt 32 (v * 256)
    rw [Nat.mod_eq_of_lt (show twosComp 32 (v * 256) / 256 < 2 ^ (8 * 3) by omega)]
    have hdvd : 256 ∣ twosComp 32 (v * 256) := by
      unfold twosComp
      have hmod : v * 256 % ((2 ^ 32 : Nat) : Int) =
          v * 256 - ((2 ^ 32 : Nat) : Int) * (v * 256 / ((2 ^ 32 : Nat) : Int)) :=
        Int.emod_def _ _
      have h0 : (0 : Int) ≤ v * 256 % ((2 ^ 32 : Nat) : Int) :=
        Int.emod_nonneg _ (by positivity)
      have hd : (256 : Int) ∣ v * 256 % ((2 ^ 32 : Nat) : Int) := by
        rw [hmod]
        exact dvd_sub ⟨v, by ring⟩ (Dvd.dvd.mul_right (by norm_num) _)
      omega
    rw [show twosComp 32 (v * 256) / 256 * 256 = twosComp 32 (v * 256) by omega]
    rw [toSigned_twosComp32 (by omega) (by omega)]
    omega
  · -- i32
    subst he
    show zipLoadInteger (natToLE 4 (twosComp 32 v)) 0 0xd0 = v
    show toSigned 32 (readLE (natToLE 4 (twosComp 32 v)) 0 4) = v
    rw [readLE_natToLE_nil,
      Nat.mod_eq_of_lt (show twosComp 32 v < 2 ^ (8 * 4) from twosComp_lt 32 v)]
    exact toSigned_twosComp32 h1 h2
  · -- i64
    subst he
    have hs : zipSaveInteger v 0xe0 = natToLE 8 (twosComp 64 v) := by
      unfold zipSaveInteger
      norm_num
    rw [hs]
    unfold zipLoadInteger
    rw [if_neg (show ¬((0xe0 : Nat) = 0xfe) by norm_num),
      if_neg (show ¬((0xe0 : Nat) = 0xc0) by norm_num),
      if_neg (show ¬((0xe0 : Nat) = 0xd0) by norm_num),
      if_neg (show ¬((0xe0 : Nat) = 0xf0) by norm_num),
      if_pos (show (0xe0 : Nat) = 0xe0 from rfl)]
    rw [readLE_natToLE_nil,
      Nat.mod_eq_of_lt (show twosComp 64 v < 2 ^ (8 * 8) from twosComp_lt 64 v)]
    exact toSigned_twosComp64 h1 h2
  · -- imm4: the value lives in the encoding byte
    have hsave : zipSaveInteger v e = [] := by
      unfold zipSaveInteger
      rw [if_neg (show ¬(e = 0xfe) by omega), if_neg (show ¬(e = 0xc0) by omega),
        if_neg (show ¬(e = 0xf0) by omega), if_neg (show ¬(e = 0xd0) by omega),
        if_neg (show ¬(e = 0xe0) by omega)]
    rw [hsave]
    unfold zipLoadInteger
    rw [if_neg (show ¬(e = 0xfe) by omega), if_neg (show ¬(e = 0xc0) by omega),
      if_neg (show ¬(e = 0xd0) by omega), if_neg (show ¬(e = 0xf0) by omega),
      if_neg (show ¬(e = 0xe0) by omega), if_pos ⟨he1, he2⟩]
    have hand : e &&& 15 = e % 16 := by
      have := Nat.and_pow_two_sub_one_eq_mod e 4
      norm_num at this
      exact this
    rw [hand]
    have : e % 16 = e - 240 := by omega
    rw [this]
    omega

theorem zipSaveLoad_roundTrip_witness :
    zipLoadInteger (zipSaveInteger (-300) 0xc0) 0 0xc0 = -300 :=
  zipSaveLoad_roundTrip (-300) 0xc0 (by decide)

/-! ### Claim C9: the byte-order contract of the wire layout -/

theorem natToLE2_eq (n : Nat) : natToLE 2 n = [n % 256, n / 2 ^ 8 % 256] := by
  show n % 256 :: (n / 256) % 256 :: [] = _
  norm_num

theorem natToLE4_eq (n : Nat) : natToLE 4 n =
    [n % 256, n / 2 ^ 8 % 256, n / 2 ^ 16 % 256, n / 2 ^ 24 % 256] := by
  show n % 256 :: (n / 256) % 256 :: (n / 256 / 256) % 256 ::
    (n / 256 / 256 / 256) % 256 :: [] = _
  rw [Nat.div_div_eq_div_mul, Nat.div_div_eq_div_mul]
  norm_num

theorem natToLE3_eq (n : Nat) : natToLE 3 n =
    [n % 256, n / 2 ^ 8 % 256, n / 2 ^ 16 % 256] := by
  show n % 256 :: (n / 256) % 256 :: (n / 256 / 256) % 256 :: [] = _
  rw [Nat.div_div_eq_div_mul]
  norm_num

/-- C9: in the wire layout, the 4-byte value of a `prevLen` field at or above
254 is written little-endian and decodes back to the length; the 14-bit and
32-bit string-length headers are written big-endian (most significant bits
first) and decode back to the length; and every multi-byte integer payload
(i16, i32, i64, and the 3-byte i24 payload, stored as the upper three bytes
of the 32-bit two's complement of `v * 256`) is written little-endian, so
the little-endian read recovers the stored two's-complement payload, for
every value the encoder can produce. -/
theorem byteOrder_contract :
    (∀ len : Nat, 254 ≤ len → len < 2 ^ 32 →
      zipPrevEncodeLength len =
        254 :: [len % 256, len / 2 ^ 8 % 256, len / 2 ^ 16 % 256, len / 2 ^ 24 % 256] ∧
      ∀ rest : List Nat, zipDecodePrevlen (zipPrevEncodeLength len ++ rest) 0 = (5, len)) ∧
    (∀ s rest : List Nat, 64 ≤ s.length → s.length ≤ 16383 → (∀ b ∈ s, b < 256) →
      zipEncodeLength 0 s.length = [64 + s.length / 2 ^ 8, s.length % 2 ^ 8] ∧
      zipDecodeLength (zipEncodeLength 0 s.length ++ (s ++ rest)) 0 =
        (0x40, 2, s.length)) ∧
    (∀ s rest : List Nat, 16384 ≤ s.length → s.length < 2 ^ 32 → (∀ b ∈ s, b < 256) →
      zipEncodeLength 0 s.length = [0x80, s.length / 2 ^ 24 % 256,
        s.length / 2 ^ 16 % 256, s.length / 2 ^ 8 % 256, s.length % 256] ∧
      zipDecodeLength (zipEncodeLength 0 s.length ++ (s ++ rest)) 0 =
        (0x80, 5, s.length)) ∧
    (∀ v : Int,
      zipSaveInteger v 0xc0 = [twosComp 16 v % 256, twosComp 16 v / 2 ^ 8 % 256] ∧
      zipSaveInteger v 0xd0 = [twosComp 32 v % 256, twosComp 32 v / 2 ^ 8 % 256,
        twosComp 32 v / 2 ^ 16 % 256, twosComp 32 v / 2 ^ 24 % 256] ∧
      zipSaveInteger v 0xf0 = [twosComp 32 (v * 256) / 2 ^ 8 % 256,
        twosComp 32 (v * 256) / 2 ^ 16 % 256, twosComp 32 (v * 256) / 2 ^ 24 % 256] ∧
      readLE (zipSaveInteger v 0xc0) 0 2 = twosComp 16 v ∧
      readLE (zipSaveInteger v 0xd0) 0 4 = twosComp 32 v ∧
      readLE (zipSaveInteger v 0xf0) 0 3 = twosComp 32 (v * 256) / 2 ^ 8 ∧
      readLE (zipSaveInteger v 0xe0) 0 8 = twosComp 64 v) := by
  refine ⟨?_, ?_, ?_, ?_⟩
  · intro len h1 h2
    have henc : zipPrevEncodeLength len = 254 :: natToLE 4 len := by
      unfold zipPrevEncodeLength
      rw [if_neg (by omega)]
    constructor
    · rw [henc, natToLE4_eq]
    · intro rest
      rw [henc]
      have := zipDecodePrevlen_cover [] true len rest (by simp) h2
      simpa using this
  · intro s rest h1 h2 hb
    constructor
    · rw [zipEncodeLength_str_mid h1 h2]
      norm_num
    · have := zipDecodeLength_cover [] (.str s) rest ⟨hb, by omega⟩
      rw [show contentHeadInfo (ZContent.str s) = (0x40, 2, s.length) by
        show (if s.length ≤ 63 then ((0 : Nat), (1 : Nat), s.length)
          else if s.length ≤ 16383 then ((0x40 : Nat), (2 : Nat), s.length)
          else ((0x80 : Nat), (5 : Nat), s.length)) = _
        rw [if_neg (by omega), if_pos h2]] at this
      rw [show contentBytes (ZContent.str s) =
        zipEncodeLength 0 s.length ++ s from rfl] at this
      simpa using this
  · intro s rest h1 h2 hb
    constructor
    · exact zipEncodeLength_str_big h1
    · have := zipDecodeLength_cover [] (.str s) rest ⟨hb, h2⟩
      rw [show contentHeadInfo (ZContent.str s) = (0x80, 5, s.length) by
        show (if s.length ≤ 63 then ((0 : Nat), (1 : Nat), s.length)
          else if s.length ≤ 16383 then ((0x40 : Nat), (2 : Nat), s.length)
          else ((0x80 : Nat), (5 : Nat), s.length)) = _
        rw [if_neg (by omega), if_neg (by omega)]] at this
      rw [show contentBytes (ZContent.str s) =
        zipEncodeLength 0 s.length ++ s from rfl] at this
      simpa using this
  · intro v
    refine ⟨?_, ?_, ?_, ?_, ?_, ?_, ?_⟩
    · show natToLE 2 (twosComp 16 v) = _
      rw [natToLE2_eq]
    · show natToLE 4 (twosComp 32 v) = _
      rw [natToLE4_eq]
    · show natToLE 3 (twosComp 32 (v * 256) / 256) = _
      rw [natToLE3_eq, Nat.div_div_eq_div_mul, Nat.div_div_eq_div_mul]
      norm_num
    · show readLE (natToLE 2 (twosComp 16 v)) 0 2 = _
      rw [readLE_natToLE_nil,
        Nat.mod_eq_of_lt (show twosComp 16 v < 2 ^ (8 * 2) from twosComp_lt 16 v)]
    · show readLE (natToLE 4 (twosComp 32 v)) 0 4 = _
      rw [readLE_natToLE_nil,
        Nat.mod_eq_of_lt (show twosComp 32 v < 2 ^ (8 * 4) from twosComp_lt 32 v)]
    · show readLE (natToLE 3 (twosComp 32 (v * 256) / 256)) 0 3 = _
      have hlt := twosComp_lt 32 (v * 256)
      rw [readLE_natToLE_nil,
        Nat.mod_eq_of_lt (show twosComp 32 (v * 256) / 256 < 2 ^ (8 * 3) by omega)]
      norm_num
    · show readLE (natToLE 8 (twosComp 64 v)) 0 8 = _
      rw [readLE_natToLE_nil,
        Nat.mod_eq_of_lt (show twosComp 64 v < 2 ^ (8 * 8) from twosComp_lt 64 v)]

theorem byteOrder_contract_witness :
    (zipPrevEncodeLength 300 =
      254 :: [300 % 256, 300 / 2 ^ 8 % 256, 300 / 2 ^ 16 % 256, 300 / 2 ^ 24 % 256]) ∧
    zipDecodePrevlen (zipPrevEncodeLength 300 ++ [7]) 0 = (5, 300) ∧
    zipSaveInteger 777 0xc0 = [twosComp 16 777 % 256, twosComp 16 777 / 2 ^ 8 % 256] ∧
    zipSaveInteger 777 0xf0 = [twosComp 32 (777 * 256) / 2 ^ 8 % 256,
      twosComp 32 (777 * 256) / 2 ^ 16 % 256, twosComp 32 (777 * 256) / 2 ^ 24 % 256] :=
  ⟨(byteOrder_contract.1 300 (by decide) (by decide)).1,
   (byteOrder_contract.1 300 (by decide) (by decide)).2 [7],
   (byteOrder_contract.2.2.2 777).1,
   (byteOrder_contract.2.2.2 777).2.2.1⟩

/-! ### Claim C2: integer coercion on insert picks the smallest encoding -/

/-- C2: `zipTryEncoding` rejects byte slices of length 0 or at least 32 and
slices that do not parse as a signed decimal integer (those are stored as
strings); when the slice parses as `v`, it returns `v` together with an
encoding that fits `v` and whose payload is no larger than that of any other
fitting encoding in the trial order `imm4, i8, i16, i24, i32, i64`; a string
is stored with the smallest length header. -/
theorem zipTryEncoding_smallest (s : List Nat) :
    (32 ≤ s.length ∨ s.length = 0 → zipTryEncoding s = none) ∧
    (∀ v : Int, ¬(32 ≤ s.length ∨ s.length = 0) → string2ll s = some v →
      ∃ e, zipTryEncoding s = some (v, e) ∧ encFits (encClass e) v ∧
        (∀ e2 ∈ encOrder, encFits e2 v → zipIntSize (encClass e) ≤ zipIntSize e2)) ∧
    (string2ll s = none → zipTryEncoding s = none) ∧
    ((zipEncodeLength 0 s.length).length = smallestStrHeader s.length) := by
  refine ⟨?_, ?_, ?_, ?_⟩
  · intro hg
    unfold zipTryEncoding
    rw [if_pos hg]
  · intro v hg hv
    unfold zipTryEncoding
    rw [if_neg hg, hv]
    dsimp only
    by_cases h1 : 0 ≤ v ∧ v ≤ 12
    · refine ⟨0xf1 + v.toNat, ?_, ?_, ?_⟩
      · rw [if_pos h1]
      · rw [show encClass (0xf1 + v.toNat) = 0xf1 by
          unfold encClass
          rw [if_pos (by omega)]]
        exact ⟨h1.1, h1.2⟩
      · intro e2 he2 hfit
        rw [show encClass (0xf1 + v.toNat) = 0xf1 by
          unfold encClass
          rw [if_pos (by omega)]]
        rw [show zipIntSize 0xf1 = 0 by decide]
        omega
    · rw [if_neg h1]
      by_cases h2 : -128 ≤ v ∧ v ≤ 127
      · refine ⟨0xfe, by rw [if_pos h2], ?_, ?_⟩
        · rw [show encClass 0xfe = 0xfe by decide]
          exact h2
        · intro e2 he2 hfit
          rw [show encClass 0xfe = 0xfe by decide,
            show zipIntSize 0xfe = 1 by decide]
          fin_cases he2 <;> simp [encFits] at hfit <;> simp [zipIntSize] <;> omega
      · rw [if_neg h2]
        by_cases h3 : -32768 ≤ v ∧ v ≤ 32767
        · refine ⟨0xc0, by rw [if_pos h3], ?_, ?_⟩
          · rw [show encClass 0xc0 = 0xc0 by decide]
            exact h3
          · intro e2 he2 hfit
            rw [show encClass 0xc0 = 0xc0 by decide,
              show zipIntSize 0xc0 = 2 by decide]
            fin_cases he2 <;> simp [encFits] at hfit <;> simp [zipIntSize] <;> omega
        · rw [if_neg h3]
          by_cases h4 : -8388608 ≤ v ∧ v ≤ 8388607
          · refine ⟨0xf0, by rw [if_pos h4], ?_, ?_⟩
            · rw [show encClass 0xf0 = 0xf0 by decide]
              exact h4
            · intro e2 he2 hfit
              rw [show encClass 0xf0 = 0xf0 by decide,
                show zipIntSize 0xf0 = 3 by decide]
              fin_cases he2 <;> simp [encFits] at hfit <;> simp [zipIntSize] <;>
                omega
          · rw [if_neg h4]
            by_cases h5 : -2147483648 ≤ v ∧ v ≤ 2147483647
            · refine ⟨0xd0, by rw [if_pos h5], ?_, ?_⟩
              · rw [show encClass 0xd0 = 0xd0 by decide]
                exact h5
              · intro e2 he2 hfit
                rw [show encClass 0xd0 = 0xd0 by decide,
                  show zipIntSize 0xd0 = 4 by decide]
                fin_cases he2 <;> simp [encFits] at hfit <;> simp [zipIntSize] <;>
                  omega
            · rw [if_neg h5]
              refine ⟨0xe0, rfl, ?_, ?_⟩
              · rw [show encClass 0xe0 = 0xe0 by decide]
                show True
                trivial
              · intro e2 he2 hfit
                rw [show encClass 0xe0 = 0xe0 by decide,
                  show zipIntSize 0xe0 = 8 by decide]
                fin_cases he2 <;> simp [encFits] at hfit <;> simp [zipIntSize] <;>
                  omega
  · intro hv
    unfold zipTryEncoding
    split
    · rfl
    · rw [hv]
  · unfold smallestStrHeader
    by_cases h1 : s.length ≤ 63
    · rw [if_pos h1, zipEncodeLength_str_small h1]
      rfl
    · rw [if_neg h1]
      by_cases h2 : s.length ≤ 16383
      · rw [if_pos h2, zipEncodeLength_str_mid (by omega) h2]
        rfl
      · rw [if_neg h2, zipEncodeLength_str_big (by omega)]
        rfl

theorem zipTryEncoding_smallest_witness :
    ∃ e, zipTryEncoding lit1024 = some (1024, e) ∧ encFits (encClass e) 1024 ∧
      (∀ e2 ∈ encOrder, encFits e2 1024 → zipIntSize (encClass e) ≤ zipIntSize e2) :=
  (zipTryEncoding_smallest lit1024).2.1 1024 (by decide) (by decide)


/-! ### Claim C4: push preserves order (concrete scenario of spec §8) -/

/-- C4: after pushing "foo", "quux" at the tail, "hello" at the head and
"1024" at the tail of an empty ziplist, iteration by index returns
"hello", "foo", "quux", 1024 in that order ("1024" being stored as the
integer 1024). -/
theorem scenario_order_preserved :
    ((ziplistIndex scenA4 0).bind fun p => ziplistGet scenA4 p) = some (ZlValue.str litHello) ∧
    ((ziplistIndex scenA4 1).bind fun p => ziplistGet scenA4 p) = some (ZlValue.str litFoo) ∧
    ((ziplistIndex scenA4 2).bind fun p => ziplistGet scenA4 p) = some (ZlValue.str litQuux) ∧
    ((ziplistIndex scenA4 3).bind fun p => ziplistGet scenA4 p) = some (ZlValue.int 1024) := by
  decide

/-! ### Claim C6: compare is numeric across encodings -/

/-- C6: comparing the integer-encoded entry "1024" with the byte slices
"1024", "1025" and "01024": the comparison parses the probe and compares
numerically, so "1024" and "01024" match while "1025" does not. -/
theorem scenario_compare_numeric :
    ziplistCompare scenB ((ziplistIndex scenB 0).getD 0) lit1024 = true ∧
    ziplistCompare scenB ((ziplistIndex scenB 0).getD 0) [49, 48, 50, 53] = false ∧
    ziplistCompare scenB ((ziplistIndex scenB 0).getD 0) [48, 49, 48, 50, 52] = true := by
  decide

/-! ### The C1/C3 bug scenario, stage by stage -/

set_option maxRecDepth 200000 in
set_option maxHeartbeats 4000000 in
theorem scenE0_lit : scenE0 = litC1e0 := by
  have h1 : ziplistPush ziplistNew [97] 1 = litC1a := by decide
  have h2 : ziplistPush litC1a big250 1 = litC1b := by decide
  have h3 : ziplistPush litC1b [102] 1 = litC1c := by decide
  have h4 : ziplistPush litC1c [120] 1 = litC1e0 := by decide
  show ziplistPush (ziplistPush (ziplistPush (ziplistPush ziplistNew [97] 1) big250 1)
    [102] 1) [120] 1 = litC1e0
  rw [h1, h2, h3, h4]

set_option maxRecDepth 200000 in
set_option maxHeartbeats 4000000 in
theorem scenE1_lit : scenE1 = litC1e1 := by
  have h5 : ziplistInsert litC1e0 ((ziplistIndex litC1e0 1).getD 0) big252 = litC1e1 := by
    decide
  show ziplistInsert scenE0 ((ziplistIndex scenE0 1).getD 0) big252 = litC1e1
  rw [scenE0_lit, h5]

set_option maxRecDepth 200000 in
set_option maxHeartbeats 4000000 in
theorem scenE2_lit : scenE2 = litC1e2 := by
  have h6 : ziplistDeleteRange litC1e1 1 1 = litC1e2 := by decide
  show ziplistDeleteRange scenE1 1 1 = litC1e2
  rw [scenE1_lit, h6]

set_option maxRecDepth 200000 in
set_option maxHeartbeats 4000000 in
theorem scenE3_lit : scenE3 = litC1e3 := by
  have h7 : ziplistInsert litC1e2 ((ziplistIndex litC1e2 2).getD 0) [] = litC1e3 := by decide
  show ziplistInsert scenE2 ((ziplistIndex scenE2 2).getD 0) [] = litC1e3
  rw [scenE2_lit, h7]

/-! ### Claim C1: the structural invariant is not preserved -/

set_option maxRecDepth 200000 in
/-- C1 (refuted): the structural invariant does not hold for every blob
reachable from `ziplistNew` by push/insert/delete.  The state `scenE2` —
["a", E, "f", "x"] after inserting a 252-byte entry before E and deleting it
again, which leaves "f" with a forced 5-byte prevlen field holding a small
value — still satisfies the invariant, but inserting an empty entry before
"f" computes `nextdiff = -4` with `reqlen = 2`, so the realloc shrinks the
blob by 2 bytes below the live data: the resulting blob `scenE3` has a
truncated tail (its stated total-byte count and entries no longer match, and
the terminator byte is gone from the stated end), violating the invariant. -/
theorem zlCheck_not_preserved : zlCheck scenE2 = true ∧ zlCheck scenE3 = false := by
  rw [scenE2_lit, scenE3_lit]
  exact ⟨by decide, by decide⟩

/-! ### Claim C3: the cascade keeps 5-byte prevlen fields, but a plain
delete shrinks the direct successor's field -/

set_option maxRecDepth 200000 in
/-- C3 counterexample to the "consequently" clause: inserting the 252-byte
entry before E grows E's prevlen field from 1 byte (`scenE0`, index 1) to
5 bytes (`scenE1`, index 2); deleting the inserted entry again does NOT
leave that field at 5 bytes — `__ziplistDelete` re-encodes the direct
successor's prevlen field with `zipPrevEncodeLength` (not the force-large
form), so in `scenE2` E's field is back to 1 byte. -/
theorem prevlen_shrunkOnDelete :
    zipDecodePrevlensize scenE0 ((ziplistIndex scenE0 1).getD 0) = 1 ∧
    zipDecodePrevlensize scenE1 ((ziplistIndex scenE1 2).getD 0) = 5 ∧
    zipDecodePrevlensize scenE2 ((ziplistIndex scenE2 1).getD 0) = 1 := by
  rw [scenE0_lit, scenE1_lit, scenE2_lit]
  exact ⟨by decide, by decide, by decide⟩

set_option maxRecDepth 200000 in
/-- C3 (amended): the first half of the claim holds for the cascade itself:
whenever the cascade step reaches an entry whose successor has a 5-byte
prevlen field while the new predecessor raw length needs only 1 byte, it
terminates by overwriting the successor's field with the 5-byte force-large
encoding of the small value (never shrinking).  The "consequently" half
holds only for successors beyond the direct one, updated through the
cascade: in the scenario, "f"'s prevlen field (grown 1 → 5 by the cascade of
the insert) is still 5 bytes after the delete, holding the value 253 which
would fit in 1 byte — while the direct successor's field does shrink (see
the counterexample). -/
theorem cascade_keepLarge_amended :
    (∀ fuel : Nat, ∀ zl : List Nat, ∀ p : Nat,
      readByte zl p ≠ 255 →
      readByte zl (p + ((zipEntry zl p).headersize + (zipEntry zl p).len)) ≠ 255 →
      (zipEntry zl (p + ((zipEntry zl p).headersize + (zipEntry zl p).len))).prevrawlen ≠
        (zipEntry zl p).headersize + (zipEntry zl p).len →
      (zipEntry zl (p + ((zipEntry zl p).headersize + (zipEntry zl p).len))).prevrawlensize
        = 5 →
      zipPrevEncodeLengthSize ((zipEntry zl p).headersize + (zipEntry zl p).len) = 1 →
      cascadeGo (fuel + 1) zl p =
        writeBytes zl (p + ((zipEntry zl p).headersize + (zipEntry zl p).len))
          (zipPrevEncodeLengthForceLarge
            ((zipEntry zl p).headersize + (zipEntry zl p).len)) ∧
      (zipPrevEncodeLengthForceLarge
        ((zipEntry zl p).headersize + (zipEntry zl p).len)).length = 5) ∧
    zipDecodePrevlensize scenE0 ((ziplistIndex scenE0 2).getD 0) = 1 ∧
    zipDecodePrevlensize scenE2 ((ziplistIndex scenE2 2).getD 0) = 5 ∧
    (zipDecodePrevlen scenE2 ((ziplistIndex scenE2 2).getD 0)).2 = 253 ∧
    zipPrevEncodeLengthSize 253 = 1 := by
  refine ⟨?_, ?_, ?_, ?_, by decide⟩
  · intro fuel zl p hp hq hne h5
    intro h1
    simp only [cascadeGo]
    rw [if_neg hp]
    rw [if_neg hq, if_neg hne, h5, h1]
    rw [if_neg (show ¬((5 : Nat) < 1) by norm_num),
      if_pos (show (5 : Nat) > 1 by norm_num)]
    exact ⟨rfl, rfl⟩
  · rw [scenE0_lit]
    decide
  · rw [scenE2_lit]
    decide
  · rw [scenE2_lit]
    decide

/-- Concrete instance of the amended C3 cascade step: in the fragment
`litW`, the entry at 0 has raw length 3 yet its successor carries a 5-byte
prevlen field holding a stale 7; one cascade step keeps the 5-byte field,
writing 3 in the force-large encoding. -/
theorem cascade_keepLarge_amended_witness :
    cascadeGo 1 litW 0 =
      writeBytes litW (0 + ((zipEntry litW 0).headersize + (zipEntry litW 0).len))
        (zipPrevEncodeLengthForceLarge
          ((zipEntry litW 0).headersize + (zipEntry litW 0).len)) ∧
    (zipPrevEncodeLengthForceLarge
      ((zipEntry litW 0).headersize + (zipEntry litW 0).len)).length = 5 :=
  cascade_keepLarge_amended.1 0 litW 0 (by decide) (by decide) (by decide) (by decide)
    (by decide)

end Ziplist
